import Mathlib

/-!
Verification of the nested-subscription core of `react-redux-with-comment`
(`src/utils/Subscription.ts`, given as `src/unnamed/part_000`): the doubly
linked listener collection (`createListenerCollection`, lines 15-90) and the
subscription node (`createSubscription`, lines 110-178).

The TypeScript code mutates a heap of listener objects through closures.  The
embedding makes that heap explicit: a listener allocated by `subscribe` gets
the next free index of `heap` as its identity (its "handle"), `next`/`prev`
pointers are `Option Nat` indices into the heap, and the per-closure
`isSubscribed` flag of each returned unsubscribe closure is kept in `flags`,
indexed by handle.  `first`/`last` are the two collection-level pointers.
Callbacks are opaque values of a type parameter; when a claim needs callbacks
that re-enter the collection (unsubscribing or subscribing during `notify`),
the callback value is a `Nat` identifier interpreted by an effect map.
-/

namespace Subscription

/-- One listener cell of the doubly linked list (`type Listener`, lines 9-13). -/
structure Node (α : Type) where
  callback : α
  next : Option Nat
  prev : Option Nat
  deriving Repr, DecidableEq

instance {α : Type} [Inhabited α] : Inhabited (Node α) := ⟨⟨default, none, none⟩⟩

/-- The state owned by one `createListenerCollection()` call (lines 15-19): the
listener heap, the `first`/`last` pointers (lines 18-19), and the `isSubscribed`
flag of every unsubscribe closure handed out so far (line 51); `flags` has one
entry per allocated listener, since each `subscribe` call creates one closure. -/
structure Coll (α : Type) where
  heap : List (Node α)
  flags : List Bool
  first : Option Nat
  last : Option Nat
  deriving Repr, DecidableEq

/-- A freshly created collection: no listeners, `first = last = null`. -/
def emptyColl {α : Type} : Coll α := ⟨[], [], none, none⟩

/-- Read listener cell `i` from the heap (dereferencing an object reference in
the source; out-of-range reads never happen along real handles). -/
def nd {α : Type} [Inhabited α] (s : Coll α) (i : Nat) : Node α := s.heap.getD i default

/-- `clear()` (lines 22-25): resets `first`/`last` to null.  The abandoned cells
and the closure flags survive, because in the source the unsubscribe closures
still capture them. -/
def clear {α : Type} (s : Coll α) : Coll α := { s with first := none, last := none }

/-- `subscribe(callback)`, state part (lines 50-63): allocate a cell whose
`prev` is the old `last` (line 56), point `last` at it (line 53), then either
patch the old tail's `next` (line 60) or make the new cell `first` (line 62).
The returned `Nat` is the handle: the new cell's heap index, standing for the
identity of the `listener` object captured by the returned closure. -/
def subscribe {α : Type} [Inhabited α] (cb : α) (s : Coll α) : Coll α × Nat :=
  let i := s.heap.length
  let s1 : Coll α :=
    { heap := s.heap ++ [⟨cb, none, s.last⟩], flags := s.flags ++ [true],
      first := s.first, last := some i }
  match s.last with
  | some p => ({ s1 with heap := s1.heap.set p { nd s1 p with next := some i } }, i)
  | none => ({ s1 with first := some i }, i)

/-- The `unsubscribe` closure returned by `subscribe` for handle `h`
(lines 66-87).  The source guard is `if (!isSubscribed || first === null)
return` (line 68); here in positive form.  On passing the guard: drop the flag
(line 69), patch `next.prev` or `last` (lines 72-78), then patch `prev.next` or
`first` (lines 80-86), re-reading each field from the current heap exactly as
the source's property accesses do. -/
def unsubscribe {α : Type} [Inhabited α] (h : Nat) (s : Coll α) : Coll α :=
  if s.flags.getD h false && s.first.isSome then
    let s1 : Coll α := { s with flags := s.flags.set h false }
    let s2 : Coll α :=
      match (nd s1 h).next with
      | some n => { s1 with heap := s1.heap.set n { nd s1 n with prev := (nd s1 h).prev } }
      | none => { s1 with last := (nd s1 h).prev }
    match (nd s2 h).prev with
    | some p => { s2 with heap := s2.heap.set p { nd s2 p with next := (nd s2 h).next } }
    | none => { s2 with first := (nd s2 h).next }
  else s

/-- The `while (listener)` walk of `get()` (lines 41-45), fueled because the
source loop's termination rests on the list being acyclic. -/
def getAux {α : Type} [Inhabited α] (s : Coll α) : Nat → Option Nat → List Nat
  | 0, _ => []
  | _, none => []
  | fuel + 1, some i => i :: getAux s fuel (nd s i).next

/-- `get()` (lines 39-47): the array snapshot of the live cells, as handles, in
list order.  `heap.length` fuel is enough for any acyclic list. -/
def get {α : Type} [Inhabited α] (s : Coll α) : List Nat := getAux s s.heap.length s.first

/-- The symmetric backwards walk (following `prev` from `last`); not an
operation of the source, but the traversal named by the structural invariant
of the specification. -/
def getRevAux {α : Type} [Inhabited α] (s : Coll α) : Nat → Option Nat → List Nat
  | 0, _ => []
  | _, none => []
  | fuel + 1, some i => i :: getRevAux s fuel (nd s i).prev

/-- Backwards snapshot from `last` via `prev`. -/
def getRev {α : Type} [Inhabited α] (s : Coll α) : List Nat := getRevAux s s.heap.length s.last

/-- What a callback running inside `notify()` may do to the collection that is
being walked: call an unsubscribe closure (of any handle), or `subscribe` a new
callback.  These are exactly the reentrant mutations the specification
discusses for the notification hot path. -/
inductive Act where
  | unsub (h : Nat)
  | sub (c : Nat)
  deriving Repr, DecidableEq

/-- Run one reentrant action. -/
def applyAct (a : Act) (s : Coll Nat) : Coll Nat :=
  match a with
  | .unsub h => unsubscribe h s
  | .sub c => (subscribe c s).1

/-- Run a callback body: the callback with identifier `c` performs the actions
`acts c`, in order, on the collection. -/
def runActs (acts : Nat → List Act) (c : Nat) (s : Coll Nat) : Coll Nat :=
  (acts c).foldl (fun s a => applyAct a s) s

/-- Modelled from the spec: the external batching primitive consumed by
`notify` (`getBatch()`, imported from `./batch` which is not part of the given
sources).  Per section 6 of the specification it "executes `work`
synchronously"; coalescing of nested flushes is the primitive's own concern and
invisible to this state model, so `batch` is synchronous application. -/
def batch {β : Type} (work : Unit → β) : β := work ()

/-- The `while (listener)` loop of `notify()` (lines 30-34): invoke the current
cell's callback (line 32, here: run its reentrant actions), then take `next`
from the *post-callback* heap (line 33 runs after line 32).  Returns the final
collection and the trace of visited handles, in invocation order.  Fueled: with
reentrant `subscribe` the source loop can genuinely diverge. -/
def notifyAuxA (acts : Nat → List Act) : Nat → Option Nat → Coll Nat → Coll Nat × List Nat
  | 0, _, s => (s, [])
  | _, none, s => (s, [])
  | fuel + 1, some i, s =>
    let s1 := runActs acts (nd s i).callback s
    let r := notifyAuxA acts fuel (nd s1 i).next s1
    (r.1, i :: r.2)

/-- `notify()` (lines 28-36): hand the walk from `first` to the batching
primitive. -/
def notifyA (acts : Nat → List Act) (fuel : Nat) (s : Coll Nat) : Coll Nat × List Nat :=
  batch (fun _ => notifyAuxA acts fuel s.first s)

/-- An external call on the collection: `subscribe(cb)` or a call of the
unsubscribe closure belonging to handle `h`. -/
inductive Op where
  | sub (cb : Nat)
  | unsub (h : Nat)
  deriving Repr, DecidableEq

/-- Run a sequence of external `subscribe`/`unsubscribe` calls against a fresh
collection (handles are allocated in order: the n-th `sub` creates handle n). -/
def runOps (ops : List Op) : Coll Nat :=
  ops.foldl (fun s o => match o with | .sub cb => (subscribe cb s).1 | .unsub h => unsubscribe h s)
    emptyColl

def runOpsFrom (s : Coll Nat) : List Op → Coll Nat
  | [] => s
  | .sub cb :: r => runOpsFrom (subscribe cb s).1 r
  | .unsub h :: r => runOpsFrom (unsubscribe h s) r

/-- Number of `subscribe` calls in a sequence: the number of handles created. -/
def subsCount : List Op → Nat
  | [] => 0
  | .sub _ :: r => subsCount r + 1
  | .unsub _ :: r => subsCount r

/-- `killed ops n h` says the sequence `ops` (run when handles below `n`
already exist) calls the unsubscribe closure of handle `h` at a moment the
closure exists, i.e. after `h` has been created. -/
def killed : List Op → Nat → Nat → Bool
  | [], _, _ => false
  | .sub _ :: r, n, h => killed r (n + 1) h
  | .unsub x :: r, n, h => (x == h && decide (h < n)) || killed r n h

/-! ### Reachability along `next` pointers

`hits s h k w` says that from cell `w`, following `next` pointers at most `k`
times, the walk stays at handles `≤ h` and arrives at `h`.  This is the loop
invariant of the `notify` walk: the chain from the current cell to a still-live
target handle survives every reentrant mutation, because unlinking a cell only
re-routes its neighbours' pointers through it. -/

def hits (s : Coll Nat) (h : Nat) : Nat → Nat → Prop
  | 0, w => w = h
  | k + 1, w => w = h ∨ ∃ u, (nd s w).next = some u ∧ u ≤ h ∧ hits s h k u

def actChain (a : Act) (s : Coll Nat) (l : List Nat) : List Nat :=
  match a with
  | .unsub x => l.erase x
  | .sub _ => l ++ [s.heap.length]

/-! ## Subscription nodes (`createSubscription`, lines 110-178)

A `createSubscription(store, parentSub?)` call owns two mutable variables:
`unsubscribe` (the undo closure obtained upstream, or `undefined`) and
`listeners` (a `ListenerCollection`, initially the shared `nullListeners`
sentinel of lines 105-108, which has `notify`/`get` but no `subscribe` or
`clear`).  The embedding keeps every listener collection ever created in a
global table `colls` — JS objects survive as long as closures reference them —
with index 0 reserved for the redux store's own subscriber list (so
`store.subscribe` is `subscribe` into collection 0).  A node's `listeners`
field is `some ci` for collection `ci`, `none` for the sentinel; its
`unsubscribe` slot records which collection and handle its undo closure
captures.  Callbacks stored in collections are `Cb` values: an opaque terminal
listener `mark m`, or `hcw i`, the `handleChangeWrapper` of node `i`
(lines 131-135). -/

/-- A callback value held by a listener collection of the node world. -/
inductive Cb where
  | mark (m : Nat)
  | hcw (i : Nat)
  deriving Repr, DecidableEq

instance : Inhabited Cb := ⟨Cb.mark 0⟩

/-- The closure state of one `createSubscription` call: `parent` is
`parentSub` (`some p` = node `p`, `none` = attach to the store), `unsub` the
`unsubscribe` variable (line 112; `some (ci, h)` = the undo closure of handle
`h` in collection `ci`), `listeners` the `listeners` variable (line 114;
`none` = `nullListeners`), and `osc` whether `onStateChange` has been set to
this node's own `notifyNestedSubs` (as `Provider.tsx` does). -/
structure NodeState where
  parent : Option Nat
  unsub : Option (Nat × Nat)
  listeners : Option Nat
  osc : Bool
  deriving Repr, DecidableEq

/-- The whole mutable world: every listener collection ever created (index 0:
the redux store's subscriber list) and every subscription node. -/
structure World where
  colls : List (Coll Cb)
  nodes : List NodeState
  deriving Repr, DecidableEq

/-- Collection `ci` of the world. -/
def collOf (w : World) (ci : Nat) : Coll Cb := w.colls.getD ci emptyColl

/-- Node `i` of the world. -/
def nodeOf (w : World) (i : Nat) : NodeState := w.nodes.getD i ⟨none, none, none, false⟩

/-- Overwrite collection `ci`. -/
def setColl (w : World) (ci : Nat) (c : Coll Cb) : World :=
  { w with colls := w.colls.set ci c }

/-- Overwrite node `i`. -/
def setNode (w : World) (i : Nat) (n : NodeState) : World :=
  { w with nodes := w.nodes.set i n }

/-- Why a fueled upstream-attachment call did not return normally. -/
inductive SubErr where
  | fuelOut
  | sentinel
  deriving Repr, DecidableEq

/-- `trySubscribe()` of node `i` (lines 143-155), fueled along the `parentSub`
chain.  If `unsubscribe` is set, do nothing.  Otherwise attach upstream: with
no parent, `store.subscribe(handleChangeWrapper)` appends `hcw i` to
collection 0; with parent `p`, run `p`'s `addNestedSub(handleChangeWrapper)`
inline — `trySubscribe(p)` (line 121) then `p.listeners.subscribe` (line 122),
which is missing on the sentinel (`SubErr.sentinel`).  Either way the undo
closure lands in `unsubscribe` and a fresh collection in `listeners`
(lines 148-153). -/
def trySubscribeF : Nat → Nat → World → Except SubErr World
  | 0, _, _ => .error .fuelOut
  | fuel + 1, i, w =>
    match (nodeOf w i).unsub with
    | some _ => .ok w
    | none =>
      match (nodeOf w i).parent with
      | none =>
        let r := subscribe (Cb.hcw i) (collOf w 0)
        let w1 := setColl w 0 r.1
        let ci := w1.colls.length
        let w2 : World := { w1 with colls := w1.colls ++ [emptyColl] }
        .ok (setNode w2 i
          { nodeOf w2 i with unsub := some (0, r.2), listeners := some ci })
      | some p =>
        match trySubscribeF fuel p w with
        | .error e => .error e
        | .ok w1 =>
          match (nodeOf w1 p).listeners with
          | none => .error .sentinel
          | some cip =>
            let r := subscribe (Cb.hcw i) (collOf w1 cip)
            let w2 := setColl w1 cip r.1
            let ci := w2.colls.length
            let w3 : World := { w2 with colls := w2.colls ++ [emptyColl] }
            .ok (setNode w3 i
              { nodeOf w3 i with unsub := some (cip, r.2), listeners := some ci })

/-- `addNestedSub(listener)` of node `p` (lines 117-123): `trySubscribe()`
first, then forward to the live registry's `subscribe`.  Returns the updated
world, the collection the listener went into, and its handle — the data the
returned unsubscribe closure captures.  Reaching the sentinel here would be
the missing `listeners.subscribe` (`SubErr.sentinel`). -/
def addNestedSubF (fuel p : Nat) (cb : Cb) (w : World) :
    Except SubErr (World × Nat × Nat) :=
  match trySubscribeF fuel p w with
  | .error e => .error e
  | .ok w1 =>
    match (nodeOf w1 p).listeners with
    | none => .error .sentinel
    | some cip =>
      let r := subscribe cb (collOf w1 cip)
      .ok (setColl w1 cip r.1, cip, r.2)

/-- `tryUnsubscribe()` of node `i` (lines 158-165).  If `unsubscribe` is
unset: nothing.  Otherwise call the undo closure, drop it, `listeners.clear()`
and install the sentinel.  `none` signals the one unguarded dereference: the
sentinel has no `clear`, so a state with an undo closure but sentinel
listeners would throw at line 162. -/
def tryUnsubscribeF (i : Nat) (w : World) : Option World :=
  match (nodeOf w i).unsub with
  | none => some w
  | some u =>
    let w1 := setColl w u.1 (unsubscribe u.2 (collOf w u.1))
    match (nodeOf w1 i).listeners with
    | none => none
    | some li =>
      let w2 := setColl w1 li (clear (collOf w1 li))
      some (setNode w2 i { nodeOf w2 i with unsub := none, listeners := none })

/-- The `while (listener)` walk of `notify()` over collection `ci` of the
world, running each `Cb`: `mark m` emits the event `m`; `hcw j` is
`handleChangeWrapper` of node `j` (lines 131-135), which when `onStateChange`
is set runs node `j`'s `notifyNestedSubs` — `listeners.notify()`, a no-op on
the sentinel, else the nested walk of `j`'s collection.  `next` is read after
the callback returns (line 33 after line 32).  Fueled: shared across the
nesting, it bounds the total number of loop steps. -/
def notifyW : Nat → Nat → Option Nat → World → World × List Nat
  | 0, _, _, w => (w, [])
  | _ + 1, _, none, w => (w, [])
  | fuel + 1, ci, some k, w =>
    let r1 : World × List Nat :=
      match (nd (collOf w ci) k).callback with
      | .mark m => (w, [m])
      | .hcw j =>
        if (nodeOf w j).osc then
          match (nodeOf w j).listeners with
          | none => (w, [])
          | some cj => notifyW fuel cj (collOf w cj).first w
        else (w, [])
    let r2 := notifyW fuel ci (nd (collOf r1.1 ci) k).next r1.1
    (r2.1, r1.2 ++ r2.2)

/-- `handleChangeWrapper` of node `j` run on its own (lines 131-135): when a
change notification reaches the node, it forwards to `onStateChange` — here
the node's `notifyNestedSubs` when installed, else nothing. -/
def handleChangeWrapperF (fuel j : Nat) (w : World) : World × List Nat :=
  if (nodeOf w j).osc then
    match (nodeOf w j).listeners with
    | none => (w, [])
    | some cj => notifyW fuel cj (collOf w cj).first w
  else (w, [])

/-- `notifyNestedSubs()` of node `i` (lines 126-128): `listeners.notify()`,
which on the sentinel does nothing (line 106). -/
def notifyNestedSubsF (fuel i : Nat) (w : World) : World × List Nat :=
  match (nodeOf w i).listeners with
  | none => (w, [])
  | some ci => notifyW fuel ci (collOf w ci).first w

/-- A redux state change: the store notifies its subscriber list
(collection 0). -/
def rootNotifyW (fuel : Nat) (w : World) : World × List Nat :=
  notifyW fuel 0 (collOf w 0).first w

/-- `isSubscribed()` (lines 138-140). -/
def isSubscribedF (i : Nat) (w : World) : Bool := (nodeOf w i).unsub.isSome

/-- `getListeners().get()`: the sentinel's `get` returns an empty array
(line 107), a live registry walks its chain. -/
def getListenersGet (i : Nat) (w : World) : List Nat :=
  match (nodeOf w i).listeners with
  | none => []
  | some ci => get (collOf w ci)

/-- The state discipline of the node: whenever the undo closure is set, the
registry is live (not the sentinel) — `trySubscribe` always installs both
together, `tryUnsubscribe` always removes both together. -/
def NodeInvW (w : World) : Prop :=
  ∀ j, (nodeOf w j).unsub.isSome = true → (nodeOf w j).listeners.isSome = true

/-- Parent pointers are in range: every node's `parentSub` is an existing node
of the world (`createSubscription` only ever receives one). -/
def parentWF (w : World) : Prop :=
  ∀ j p, (nodeOf w j).parent = some p → p < w.nodes.length

/-! ## Concrete scenarios

The specification's worked examples, as closed states.  `sC1`: three
callbacks (identifiers 1, 2, 3) subscribed in order, handles 0, 1, 2; `sC1b`:
handle 1 already unsubscribed; `actsC1`: callback 3 calls handle 0's
unsubscribe closure mid-pass (reentrant removal of an already-visited node).
`sC10`/`actsC10`: one subscriber whose callback unsubscribes itself and then
subscribes a new callback during the pass.  `sC4`: subscribe, `clear()`, then
subscribe again — the state in which a pre-clear unsubscribe closure is
invoked. -/

def sC1 : Coll Nat := (subscribe 3 (subscribe 2 (subscribe 1 emptyColl).1).1).1

def sC1b : Coll Nat := unsubscribe 1 sC1

def actsC1 : Nat → List Act := fun c => if c = 3 then [Act.unsub 0] else []

def sC10 : Coll Nat := (subscribe 1 emptyColl).1

def actsC10 : Nat → List Act := fun c => if c = 1 then [Act.unsub 0, Act.sub 2] else []

def sC4 : Coll Nat := (subscribe 2 (clear (subscribe 1 emptyColl).1)).1

/-- Extract the world from an upstream-attachment result (`addNestedSub`
shape), with a fallback for the error case. -/
def wOfA : Except SubErr (World × Nat × Nat) → World → World
  | .ok r, _ => r.1
  | .error _, d => d

/-- Extract the world from a `trySubscribe` result, with a fallback. -/
def wOfT : Except SubErr World → World → World
  | .ok w, _ => w
  | .error _, d => d

/-- The C2 tree, step by step: `wC2a` is the initial world — the store's empty
subscriber list, node 0 = P (root-attached) and node 1 = C (parent P), both
with `onStateChange = notifyNestedSubs` as `Provider.tsx` installs it.  Then:
P gets terminal listener `mark 10` (markP), C attaches upstream (placing C's
`handleChangeWrapper` after markP in P's registry), and C gets terminal
listener `mark 20` (markC). -/
def wC2a : World := ⟨[emptyColl], [⟨none, none, none, true⟩, ⟨some 0, none, none, true⟩]⟩

def wC2b : World := wOfA (addNestedSubF 3 0 (Cb.mark 10) wC2a) wC2a

def wC2c : World := wOfT (trySubscribeF 3 1 wC2b) wC2b

def wC2d : World := wOfA (addNestedSubF 3 1 (Cb.mark 20) wC2c) wC2c

/-- A world with one fresh root-attached node, and the same node attached:
the smallest concrete instances of the node-lifecycle claims. -/
def wN0 : World := ⟨[emptyColl], [⟨none, none, none, false⟩]⟩

def wN1 : World := wOfT (trySubscribeF 1 0 wN0) wN0

/-! ## The structural invariant

`Wf s l` says that the collection `s` currently holds exactly the live chain
`l` (handles in list order): `first`/`last` frame it, adjacent cells point at
each other, the endpoints' outward pointers are null, and a closure flag is up
exactly for the handles on the chain.  `heapOrd` adds the allocation-order
direction of every pointer in the heap — including cells already unlinked,
whose frozen pointers still always point forward (`next`) or backward (`prev`)
in allocation order, which is what makes the `notify` walk loop-free. -/

/-- Adjacent cells `a`, `b` point at each other. -/
def linkRel {α : Type} [Inhabited α] (s : Coll α) (a b : Nat) : Prop :=
  (nd s a).next = some b ∧ (nd s b).prev = some a

instance {α : Type} [Inhabited α] [DecidableEq α] (s : Coll α) : DecidableRel (linkRel s) :=
  fun a b => inferInstanceAs (Decidable ((nd s a).next = some b ∧ (nd s b).prev = some a))

/-- The collection `s` holds exactly the live chain `l`, in list order. -/
def Wf {α : Type} [Inhabited α] (s : Coll α) (l : List Nat) : Prop :=
  s.first = l.head? ∧
  s.last = l.getLast? ∧
  List.Chain' (linkRel s) l ∧
  l.head?.bind (fun x => (nd s x).prev) = none ∧
  l.getLast?.bind (fun x => (nd s x).next) = none ∧
  (∀ x ∈ l, x < s.heap.length) ∧
  s.flags.length = s.heap.length ∧
  (∀ i, i < s.heap.length → (s.flags.getD i false = true ↔ i ∈ l))

instance {α : Type} [Inhabited α] [DecidableEq α] (s : Coll α) (l : List Nat) :
    Decidable (Wf s l) :=
  inferInstanceAs (Decidable (_ ∧ _ ∧ _ ∧ _ ∧ _ ∧ _ ∧ _ ∧ _))

/-- Every pointer in the heap respects allocation order and stays in bounds. -/
def heapOrd {α : Type} [Inhabited α] (s : Coll α) : Prop :=
  ∀ i, i < s.heap.length →
    (∀ j ∈ (nd s i).next, i < j ∧ j < s.heap.length) ∧ (∀ j ∈ (nd s i).prev, j < i)

instance {α : Type} [Inhabited α] (s : Coll α) : Decidable (heapOrd s) :=
  inferInstanceAs (Decidable (∀ i, i < s.heap.length → _ ∧ _))

/-- Full invariant: well-formed live chain plus allocation-ordered heap. -/
def Inv {α : Type} [Inhabited α] (s : Coll α) (l : List Nat) : Prop := Wf s l ∧ heapOrd s

instance {α : Type} [Inhabited α] [DecidableEq α] (s : Coll α) (l : List Nat) :
    Decidable (Inv s l) :=
  inferInstanceAs (Decidable (Wf s l ∧ heapOrd s))

/-! ### Heap access helpers -/

theorem getD_set_self {β : Type} (l : List β) (i : Nat) (x d : β) (h : i < l.length) :
    (l.set i x).getD i d = x := by
  simp [List.getD_eq_getElem?_getD, List.getElem?_set_self, h]

theorem getD_set_ne {β : Type} (l : List β) {i j : Nat} (x d : β) (h : i ≠ j) :
    (l.set i x).getD j d = l.getD j d := by
  simp [List.getD_eq_getElem?_getD, List.getElem?_set_ne h]

theorem getD_append_lt {β : Type} (l : List β) (x d : β) {i : Nat} (h : i < l.length) :
    (l ++ [x]).getD i d = l.getD i d := by
  simp [List.getD_eq_getElem?_getD, List.getElem?_append_left h]

theorem getD_append_len {β : Type} (l : List β) (x d : β) :
    (l ++ [x]).getD l.length d = x := by
  simp [List.getD_eq_getElem?_getD, List.getElem?_append_right (Nat.le_refl _)]

theorem getD_of_le {β : Type} (l : List β) (d : β) {i : Nat} (h : l.length ≤ i) :
    l.getD i d = d := by
  simp [List.getD_eq_getElem?_getD, List.getElem?_eq_none h]

/-! ### Consequences of the invariant -/

/-- Along a well-formed chain, handles strictly increase in allocation order:
`subscribe` only ever appends at the tail, so list order is registration
order. -/
theorem chain_lt {α : Type} [Inhabited α] {s : Coll α} {l : List Nat}
    (hord : heapOrd s) (hb : ∀ x ∈ l, x < s.heap.length)
    (hc : List.Chain' (linkRel s) l) : List.Chain' (· < ·) l := by
  induction l with
  | nil => simp
  | cons a t ih =>
    cases t with
    | nil => simp
    | cons b t2 =>
      rw [List.chain'_cons] at hc ⊢
      have ha : a < s.heap.length := hb a (by simp)
      have hab := ((hord a ha).1 b (Option.mem_def.mpr hc.1.1)).1
      exact ⟨hab, ih (fun x hx => hb x (List.mem_cons_of_mem _ hx)) hc.2⟩

/-- A well-formed chain has no duplicate handles. -/
theorem inv_nodup {α : Type} [Inhabited α] {s : Coll α} {l : List Nat}
    (hinv : Inv s l) : l.Nodup :=
  (List.chain'_iff_pairwise.mp
    (chain_lt hinv.2 hinv.1.2.2.2.2.2.1 hinv.1.2.2.1)).nodup

/-- At a split of the live chain, the cell in the middle points at its
neighbours: `next` is the head of the right part, `prev` the last of the left
part. -/
theorem wf_split {α : Type} [Inhabited α] {s : Coll α} {l1 l2 : List Nat} {h : Nat}
    (hw : Wf s (l1 ++ h :: l2)) :
    (nd s h).next = l2.head? ∧ (nd s h).prev = l1.getLast? := by
  obtain ⟨_, _, hc, hhp, hln, _, _, _⟩ := hw
  constructor
  · cases l2 with
    | nil =>
      have : (l1 ++ [h]).getLast? = some h := by simp
      rw [this] at hln
      simpa using hln
    | cons j t =>
      have h2 := (List.chain'_append.mp hc).2.1
      rw [List.chain'_cons] at h2
      exact h2.1.1
  · rcases l1.eq_nil_or_concat with rfl | ⟨l0, q, rfl⟩
    · simp only [List.nil_append, List.head?_cons] at hhp
      simpa using hhp
    · have h3 := (List.chain'_append.mp hc).2.2
      have : linkRel s q h := by
        apply h3 q (by simp) h (by simp)
      simp [this.2]

/-! ### Equation lemmas for `subscribe` and `unsubscribe` -/

theorem subscribe_eq_none {α : Type} [Inhabited α] (cb : α) (s : Coll α) (hsl : s.last = none) :
    subscribe cb s =
      ({ heap := s.heap ++ [⟨cb, none, none⟩], flags := s.flags ++ [true],
         first := some s.heap.length, last := some s.heap.length }, s.heap.length) := by
  simp [subscribe, hsl]

theorem subscribe_eq_some {α : Type} [Inhabited α] (cb : α) (s : Coll α) {p : Nat}
    (hsl : s.last = some p) (hp : p < s.heap.length) :
    subscribe cb s =
      ({ heap := (s.heap ++ [({ callback := cb, next := none, prev := some p } : Node α)]).set p
           { callback := (nd s p).callback, next := some s.heap.length, prev := (nd s p).prev },
         flags := s.flags ++ [true],
         first := s.first, last := some s.heap.length }, s.heap.length) := by
  simp only [subscribe, hsl, nd]
  rw [getD_append_lt _ _ _ hp]

/-- The handle returned by `subscribe` is the pre-call heap length, and the
heap grows by exactly one cell. -/
theorem subscribe_shape {α : Type} [Inhabited α] (cb : α) (s : Coll α) :
    (subscribe cb s).2 = s.heap.length ∧
    (subscribe cb s).1.heap.length = s.heap.length + 1 ∧
    (subscribe cb s).1.flags.length = s.flags.length + 1 := by
  cases hsl : s.last with
  | none => simp [subscribe, hsl]
  | some p => simp [subscribe, hsl]

/-- Transfer a `linkRel` chain between two collections that agree on every
`next` except possibly at `np` and every `prev` except possibly at `pp`,
provided `np` is not a left neighbour and `pp` not a right neighbour in the
chain. -/
theorem chain'_linkRel_congr {α : Type} [Inhabited α] {s s' : Coll α} (np pp : Nat) :
    ∀ {l : List Nat}, np ∉ l.dropLast → pp ∉ l.tail →
    (∀ a, a ≠ np → (nd s' a).next = (nd s a).next) →
    (∀ b, b ≠ pp → (nd s' b).prev = (nd s b).prev) →
    List.Chain' (linkRel s) l → List.Chain' (linkRel s') l := by
  intro l
  induction l with
  | nil => intro _ _ _ _ _; simp
  | cons a t ih =>
    intro hnp hpp hnext hprev hc
    cases t with
    | nil => simp
    | cons b t2 =>
      rw [List.chain'_cons] at hc ⊢
      have hna : a ≠ np := by
        intro h
        exact hnp (by simp [h, List.dropLast_cons_of_ne_nil])
      have hpb : b ≠ pp := by
        intro h
        exact hpp (by simp [h])
      refine ⟨⟨?_, ?_⟩, ?_⟩
      · rw [hnext a hna]; exact hc.1.1
      · rw [hprev b hpb]; exact hc.1.2
      · apply ih ?_ ?_ hnext hprev hc.2
        · intro hmem
          apply hnp
          rcases t2 with _ | ⟨c, t3⟩
          · simp at hmem
          · simpa using Or.inr hmem
        · intro hmem
          exact hpp (List.mem_cons_of_mem _ (by simpa using hmem))

/-! ### `subscribe` preserves the invariant, appending the new handle -/

theorem subscribe_inv {α : Type} [Inhabited α] (cb : α) {s : Coll α} {l : List Nat}
    (hinv : Inv s l) : Inv (subscribe cb s).1 (l ++ [s.heap.length]) := by
  obtain ⟨⟨hf, hl, hc, hhp, hln, hb, hfl, hflm⟩, hord⟩ := hinv
  cases hsl : s.last with
  | none =>
    have hnil : l = [] := List.getLast?_eq_none_iff.mp (hsl ▸ hl).symm
    subst hnil
    rw [subscribe_eq_none cb s hsl]
    refine ⟨⟨by simp, by simp, by simp, ?_, ?_, by simp, by simp [hfl], ?_⟩, ?_⟩
    · simp [nd, getD_append_len]
    · simp [nd, getD_append_len]
    · intro i hi
      simp only [List.length_append, List.length_cons, List.length_nil] at hi
      show (s.flags ++ [true]).getD i false = true ↔ i ∈ [] ++ [s.heap.length]
      rcases Nat.lt_or_ge i s.heap.length with hlt | hge
      · rw [getD_append_lt _ _ _ (hfl ▸ hlt)]
        have hfalse := hflm i hlt
        simp only [List.not_mem_nil, iff_false, Bool.not_eq_true] at hfalse
        rw [hfalse]
        simp
        omega
      · have hieq : i = s.heap.length := by omega
        subst hieq
        rw [← hfl, getD_append_len]
        simp
    · intro i hi
      simp only [List.length_append, List.length_cons, List.length_nil] at hi
      constructor
      · intro j hj
        rcases Nat.lt_or_ge i s.heap.length with hlt | hge
        · simp only [nd, getD_append_lt _ _ _ hlt] at hj
          have := (hord i hlt).1 j hj
          simp only [List.length_append, List.length_cons, List.length_nil]
          omega
        · have hieq : i = s.heap.length := by omega
          subst hieq
          simp only [nd, getD_append_len] at hj
          simp at hj
      · intro j hj
        rcases Nat.lt_or_ge i s.heap.length with hlt | hge
        · simp only [nd, getD_append_lt _ _ _ hlt] at hj
          exact (hord i hlt).2 j hj
        · have hieq : i = s.heap.length := by omega
          subst hieq
          simp only [nd, getD_append_len] at hj
          simp at hj
  | some p =>
    rcases l.eq_nil_or_concat with rfl | ⟨l0, q, rfl⟩
    · rw [hsl] at hl; simp at hl
    · simp only [List.concat_eq_append] at hf hl hc hhp hln hb hflm
      have hq : q = p := by rw [hsl] at hl; simpa using hl.symm
      subst hq
      have hpl : q < s.heap.length := hb q (by simp)
      have hnd : (l0 ++ [q]).Nodup :=
        (List.chain'_iff_pairwise.mp (chain_lt hord hb hc)).nodup
      have hpl0 : q ∉ l0 := by
        intro hx; exact List.disjoint_of_nodup_append hnd hx (by simp)
      rw [subscribe_eq_some cb s hsl hpl]
      simp only [List.concat_eq_append]
      show Inv
        { heap := ((s.heap ++
              [({ callback := cb, next := none, prev := some q } : Node α)]).set q
              ({ callback := (nd s q).callback, next := some s.heap.length,
                 prev := (nd s q).prev } : Node α)),
          flags := s.flags ++ [true], first := s.first, last := some s.heap.length }
        ((l0 ++ [q]) ++ [s.heap.length])
      set S : Coll α :=
        { heap := ((s.heap ++
              [({ callback := cb, next := none, prev := some q } : Node α)]).set q
              ({ callback := (nd s q).callback, next := some s.heap.length,
                 prev := (nd s q).prev } : Node α)),
          flags := s.flags ++ [true], first := s.first, last := some s.heap.length } with hS
      have hSlen : S.heap.length = s.heap.length + 1 := by simp [hS]
      have ndSp : nd S q =
          ({ callback := (nd s q).callback, next := some s.heap.length,
             prev := (nd s q).prev } : Node α) := by
        simp only [hS, nd]
        rw [getD_set_self]
        simp
        omega
      have ndSlen : nd S s.heap.length =
          ({ callback := cb, next := none, prev := some q } : Node α) := by
        simp only [hS, nd]
        rw [getD_set_ne _ _ _ (Nat.ne_of_lt hpl), getD_append_len]
      have ndSother : ∀ i, i ≠ q → i ≠ s.heap.length → nd S i = nd s i := by
        intro i hip hilen
        simp only [hS, nd]
        rw [getD_set_ne _ _ _ (Ne.symm hip)]
        rcases Nat.lt_or_ge i s.heap.length with hlt | hge
        · rw [getD_append_lt _ _ _ hlt]
        · have h1 : s.heap.length + 1 ≤ i := by omega
          rw [getD_of_le _ _ (by simpa using h1), getD_of_le _ _ (by omega)]
      have hnexteq : ∀ a, a ≠ q → (nd S a).next = (nd s a).next := by
        intro a hap
        rcases eq_or_ne a s.heap.length with rfl | hane
        · rw [ndSlen]
          simp only [nd]
          rw [getD_of_le _ _ (Nat.le_refl _)]
          rfl
        · rw [ndSother a hap hane]
      have hpreveq : ∀ b, b ≠ s.heap.length → (nd S b).prev = (nd s b).prev := by
        intro b hblen
        rcases eq_or_ne b q with rfl | hbp
        · rw [ndSp]
        · rw [ndSother b hbp hblen]
      refine ⟨⟨?_, by simp [hS], ?_, ?_, ?_, ?_, by simp [hS, hfl], ?_⟩, ?_⟩
      · show S.first = _
        rw [List.head?_append_of_ne_nil _ (by simp)]
        rw [hS]
        exact hf
      · rw [List.chain'_append]
        refine ⟨?_, by simp, ?_⟩
        · exact chain'_linkRel_congr q s.heap.length
            (by simpa using hpl0)
            (fun hx => Nat.ne_of_lt (hb _ (List.mem_of_mem_tail hx)) rfl)
            hnexteq hpreveq hc
        · intro x hx y hy
          simp only [List.getLast?_concat, Option.mem_def, Option.some.injEq] at hx
          simp only [List.head?_cons, Option.mem_def, Option.some.injEq] at hy
          subst hx; subst hy
          exact ⟨by rw [ndSp], by rw [ndSlen]⟩
      · cases hhd : (l0 ++ [q]).head? with
        | none => simp at hhd
        | some x =>
          rw [List.head?_append_of_ne_nil _ (by simp), hhd]
          have hxl : x ∈ l0 ++ [q] := List.mem_of_mem_head? (by rw [hhd]; rfl)
          show (nd S x).prev = none
          rw [hpreveq x (Nat.ne_of_lt (hb x hxl))]
          rw [hhd] at hhp
          simpa using hhp
      · rw [List.getLast?_concat]
        show (nd S s.heap.length).next = none
        rw [ndSlen]
      · intro x hx
        rw [hSlen]
        rcases List.mem_append.mp hx with hx | hx
        · exact Nat.lt_succ_of_lt (hb x hx)
        · simp at hx; omega
      · intro i hi
        rw [hSlen] at hi
        show (s.flags ++ [true]).getD i false = true ↔ _
        rcases Nat.lt_or_ge i s.heap.length with hlt | hge
        · rw [getD_append_lt _ _ _ (hfl ▸ hlt)]
          rw [hflm i hlt]
          constructor
          · intro hm; exact List.mem_append_left _ hm
          · intro hm
            rcases List.mem_append.mp hm with hm | hm
            · exact hm
            · simp at hm; omega
        · have hieq : i = s.heap.length := by omega
          subst hieq
          rw [← hfl, getD_append_len]
          simp
      · intro i hi
        rw [hSlen] at hi
        rcases eq_or_ne i q with rfl | hip
        · rw [ndSp]
          refine ⟨fun j hj => ?_, fun j hj => (hord i hpl).2 j hj⟩
          simp only [Option.mem_def, Option.some.injEq] at hj
          subst hj
          rw [hSlen]
          omega
        · rcases eq_or_ne i s.heap.length with rfl | hilen
          · rw [ndSlen]
            refine ⟨by simp, fun j hj => ?_⟩
            simp only [Option.mem_def, Option.some.injEq] at hj
            subst hj
            exact hpl
          · have hlt : i < s.heap.length := by omega
            rw [ndSother i hip hilen]
            refine ⟨fun j hj => ?_, fun j hj => (hord i hlt).2 j hj⟩
            have := (hord i hlt).1 j hj
            rw [hSlen]
            omega

/-! ### What `unsubscribe` does, by neighbour configuration

Four equation lemmas, one per shape of the removed cell's neighbourhood
(middle cell, head cell, tail cell, only cell).  They assume only the local
facts the unlink code reads; the distinctness hypotheses say the removed cell
is not its own neighbour, which the invariant later guarantees. -/

theorem unsubscribe_eq_somesome {α : Type} [Inhabited α] {s : Coll α} {h n p : Nat}
    (hflag : s.flags.getD h false = true) (hfs : s.first.isSome = true)
    (hnx : (nd s h).next = some n) (hpv : (nd s h).prev = some p)
    (hnh : n ≠ h) (hpn : p ≠ n) :
    unsubscribe h s =
      { heap := (s.heap.set n
            (Node.mk (nd s n).callback (nd s n).next (some p))).set p
            (Node.mk (nd s p).callback (some n) (nd s p).prev),
        flags := s.flags.set h false, first := s.first, last := s.last } := by
  have hcond : (s.flags.getD h false && s.first.isSome) = true := by rw [hflag, hfs]; rfl
  rw [unsubscribe, if_pos hcond]
  have e1 : ∀ i, nd { s with flags := s.flags.set h false } i = nd s i := fun _ => rfl
  simp only [e1, hnx, hpv]
  have e3 : ∀ x : Node α,
      nd (Coll.mk (s.heap.set n x) (s.flags.set h false) s.first s.last) h = nd s h := by
    intro x
    simp only [nd]
    exact getD_set_ne _ _ _ hnh
  have e4 : ∀ x : Node α,
      nd (Coll.mk (s.heap.set n x) (s.flags.set h false) s.first s.last) p = nd s p := by
    intro x
    simp only [nd]
    exact getD_set_ne _ _ _ hpn.symm
  simp only [e3, e4, hnx, hpv]

theorem unsubscribe_eq_somenone {α : Type} [Inhabited α] {s : Coll α} {h n : Nat}
    (hflag : s.flags.getD h false = true) (hfs : s.first.isSome = true)
    (hnx : (nd s h).next = some n) (hpv : (nd s h).prev = none) (hnh : n ≠ h) :
    unsubscribe h s =
      { heap := s.heap.set n (Node.mk (nd s n).callback (nd s n).next none),
        flags := s.flags.set h false, first := some n, last := s.last } := by
  have hcond : (s.flags.getD h false && s.first.isSome) = true := by rw [hflag, hfs]; rfl
  rw [unsubscribe, if_pos hcond]
  have e1 : ∀ i, nd { s with flags := s.flags.set h false } i = nd s i := fun _ => rfl
  simp only [e1, hnx, hpv]
  have e3 : ∀ x : Node α,
      nd (Coll.mk (s.heap.set n x) (s.flags.set h false) s.first s.last) h = nd s h := by
    intro x
    simp only [nd]
    exact getD_set_ne _ _ _ hnh
  simp only [e3, hnx, hpv]

theorem unsubscribe_eq_nonesome {α : Type} [Inhabited α] {s : Coll α} {h p : Nat}
    (hflag : s.flags.getD h false = true) (hfs : s.first.isSome = true)
    (hnx : (nd s h).next = none) (hpv : (nd s h).prev = some p) :
    unsubscribe h s =
      { heap := s.heap.set p (Node.mk (nd s p).callback none (nd s p).prev),
        flags := s.flags.set h false, first := s.first, last := some p } := by
  have hcond : (s.flags.getD h false && s.first.isSome) = true := by rw [hflag, hfs]; rfl
  rw [unsubscribe, if_pos hcond]
  have e1 : ∀ i, nd { s with flags := s.flags.set h false } i = nd s i := fun _ => rfl
  simp only [e1, hnx, hpv]
  have e2 : ∀ i, nd (Coll.mk s.heap (s.flags.set h false) s.first (some p)) i = nd s i :=
    fun _ => rfl
  simp only [e2, hnx, hpv]

theorem unsubscribe_eq_nonenone {α : Type} [Inhabited α] {s : Coll α} {h : Nat}
    (hflag : s.flags.getD h false = true) (hfs : s.first.isSome = true)
    (hnx : (nd s h).next = none) (hpv : (nd s h).prev = none) :
    unsubscribe h s =
      { heap := s.heap, flags := s.flags.set h false, first := none, last := none } := by
  have hcond : (s.flags.getD h false && s.first.isSome) = true := by rw [hflag, hfs]; rfl
  rw [unsubscribe, if_pos hcond]
  have e1 : ∀ i, nd { s with flags := s.flags.set h false } i = nd s i := fun _ => rfl
  simp only [e1, hnx, hpv]
  have e2 : ∀ i, nd (Coll.mk s.heap (s.flags.set h false) s.first none) i = nd s i :=
    fun _ => rfl
  simp only [e2, hnx, hpv]

/-- A failed guard (already unsubscribed, or the collection was cleared and is
still empty) leaves the collection untouched: the closure is a no-op. -/
theorem unsubscribe_noop {α : Type} [Inhabited α] {s : Coll α} {h : Nat}
    (hcond : (s.flags.getD h false && s.first.isSome) = false) : unsubscribe h s = s := by
  have hnc : ¬ ((s.flags.getD h false && s.first.isSome) = true) := by
    intro hc
    rw [hc] at hcond
    exact Bool.noConfusion hcond
  rw [unsubscribe, if_neg hnc]

/-- Congruence for `Option.bind` under pointwise equal continuations. -/
theorem optBind_congr {β : Type} (o : Option Nat) {f g : Nat → Option β}
    (h : ∀ x, f x = g x) : o.bind f = o.bind g := by
  cases o <;> simp [h]

/-! ### `unsubscribe` preserves the invariant, removing the handle -/

theorem unsubscribe_inv_split {α : Type} [Inhabited α] {s : Coll α} {l1 l2 : List Nat}
    {h : Nat} (hinv : Inv s (l1 ++ h :: l2)) : Inv (unsubscribe h s) (l1 ++ l2) := by
  obtain ⟨hw, hord⟩ := hinv
  obtain ⟨hf, hl, hc, hhp, hln, hb, hfl, hflm⟩ := hw
  have hwf : Wf s (l1 ++ h :: l2) := ⟨hf, hl, hc, hhp, hln, hb, hfl, hflm⟩
  have hLnd : (l1 ++ h :: l2).Nodup := inv_nodup ⟨hwf, hord⟩
  have hLlt : List.Chain' (· < ·) (l1 ++ h :: l2) := chain_lt hord hb hc
  have hhl : h < s.heap.length := hb h (by simp)
  have hnx : (nd s h).next = l2.head? := (wf_split hwf).1
  have hpv : (nd s h).prev = l1.getLast? := (wf_split hwf).2
  have hflagh : s.flags.getD h false = true := (hflm h hhl).mpr (by simp)
  have hfs : s.first.isSome = true := by
    rw [hf]; cases l1 <;> simp
  have hh1 : h ∉ l1 := fun hx => List.disjoint_of_nodup_append hLnd hx (by simp)
  have hh2 : h ∉ l2 := by
    have h2 := (List.nodup_append.mp hLnd).2.1
    simp at h2
    exact h2.1
  have hb' : ∀ x ∈ l1 ++ l2, x < s.heap.length := by
    intro x hx
    rcases List.mem_append.mp hx with hx | hx
    · exact hb x (List.mem_append_left _ hx)
    · exact hb x (List.mem_append_right _ (List.mem_cons_of_mem _ hx))
  have hflags' : ∀ i, i < s.heap.length →
      ((s.flags.set h false).getD i false = true ↔ i ∈ l1 ++ l2) := by
    intro i hi
    rcases eq_or_ne i h with rfl | hih
    · rw [getD_set_self s.flags i false false (hfl ▸ hhl)]
      simp [hh1, hh2]
    · rw [getD_set_ne s.flags false false (Ne.symm hih)]
      rw [hflm i hi]
      simp [hih]
  cases l2 with
  | nil =>
    rcases l1.eq_nil_or_concat with rfl | ⟨l0, p, rfl⟩
    · rw [unsubscribe_eq_nonenone hflagh hfs (by simpa using hnx) (by simpa using hpv)]
      refine ⟨⟨by simp, by simp, by simp, by simp, by simp, by simp, by simp [hfl], ?_⟩, ?_⟩
      · intro i hi
        exact hflags' i hi
      · intro i hi
        exact hord i hi
    · simp only [List.concat_eq_append] at *
      have hnn : (nd s h).next = none := by simpa using hnx
      have hpp : (nd s h).prev = some p := by rw [hpv]; simp
      have hplen : p < s.heap.length := hb p (by simp)
      have hl1nd : (l0 ++ [p]).Nodup := (List.nodup_append.mp hLnd).1
      have hpl0 : p ∉ l0 := fun hx => List.disjoint_of_nodup_append hl1nd hx (by simp)
      rw [unsubscribe_eq_nonesome hflagh hfs hnn hpp]
      set S : Coll α :=
        { heap := s.heap.set p (Node.mk (nd s p).callback none (nd s p).prev),
          flags := s.flags.set h false, first := s.first, last := some p } with hS
      have ndRp : nd S p = Node.mk (nd s p).callback none (nd s p).prev := by
        simp only [hS, nd]
        exact getD_set_self _ _ _ _ hplen
      have ndRo : ∀ i, i ≠ p → nd S i = nd s i := by
        intro i hip
        simp only [hS, nd]
        exact getD_set_ne _ _ _ (Ne.symm hip)
      have hprev_all : ∀ b, (nd S b).prev = (nd s b).prev := by
        intro b
        rcases eq_or_ne b p with rfl | hbp
        · rw [ndRp]
        · rw [ndRo b hbp]
      have hnext_ne : ∀ a, a ≠ p → (nd S a).next = (nd s a).next := by
        intro a hap
        rw [ndRo a hap]
      refine ⟨⟨?_, by simp, ?_, ?_, ?_, ?_, by simp [hS, hfl], ?_⟩, ?_⟩
      · show S.first = ((l0 ++ [p]) ++ []).head?
        rw [hS]
        rw [hf, List.head?_append_of_ne_nil _ (by simp)]
        simp
      · show List.Chain' (linkRel S) ((l0 ++ [p]) ++ [])
        rw [List.append_nil]
        have hcl : List.Chain' (linkRel s) (l0 ++ [p]) := (List.chain'_append.mp hc).1
        exact chain'_linkRel_congr p h
          (by simpa using hpl0)
          (fun hx => hh1 (List.mem_of_mem_tail hx))
          hnext_ne (fun b _ => hprev_all b) hcl
      · show ((((l0 ++ [p]) ++ []).head?).bind fun x => (nd S x).prev) = none
        rw [optBind_congr _ hprev_all, List.append_nil]
        rw [List.head?_append_of_ne_nil _ (by simp)] at hhp
        exact hhp
      · show ((((l0 ++ [p]) ++ []).getLast?).bind fun x => (nd S x).next) = none
        rw [List.append_nil, List.getLast?_concat]
        show (nd S p).next = none
        rw [ndRp]
      · intro x hx
        show x < S.heap.length
        simp only [hS, List.length_set]
        exact hb' x hx
      · intro i hi
        simp only [hS, List.length_set] at hi
        exact hflags' i hi
      · intro i hi
        simp only [hS, List.length_set] at hi
        rcases eq_or_ne i p with rfl | hip
        · rw [ndRp]
          refine ⟨fun j hj => by simp at hj, fun j hj => (hord i hplen).2 j hj⟩
        · rw [ndRo i hip]
          refine ⟨fun j hj => ?_, fun j hj => (hord i hi).2 j hj⟩
          have := (hord i hi).1 j hj
          simpa [hS] using this
  | cons n l2t =>
    rcases l1.eq_nil_or_concat with rfl | ⟨l0, p, rfl⟩
    · simp only [List.concat_eq_append] at *
      have hnn : (nd s h).next = some n := by simpa using hnx
      have hpn : (nd s h).prev = none := by simpa using hpv
      have hnh : n ≠ h := fun e => hh2 (by simp [e])
      have hnlen : n < s.heap.length := hb n (by simp)
      have hl2nd : (n :: l2t).Nodup := by
        simpa using (List.nodup_append.mp hLnd).2.1.of_cons
      rw [unsubscribe_eq_somenone hflagh hfs hnn hpn hnh]
      set S : Coll α :=
        { heap := s.heap.set n (Node.mk (nd s n).callback (nd s n).next none),
          flags := s.flags.set h false, first := some n, last := s.last } with hS
      have ndRn : nd S n = Node.mk (nd s n).callback (nd s n).next none := by
        simp only [hS, nd]
        exact getD_set_self _ _ _ _ hnlen
      have ndRo : ∀ i, i ≠ n → nd S i = nd s i := by
        intro i hin
        simp only [hS, nd]
        exact getD_set_ne _ _ _ (Ne.symm hin)
      have hnext_all : ∀ a, (nd S a).next = (nd s a).next := by
        intro a
        rcases eq_or_ne a n with rfl | han
        · rw [ndRn]
        · rw [ndRo a han]
      have hprev_ne : ∀ b, b ≠ n → (nd S b).prev = (nd s b).prev := by
        intro b hbn
        rw [ndRo b hbn]
      refine ⟨⟨by simp, ?_, ?_, ?_, ?_, ?_, by simp [hS, hfl], ?_⟩, ?_⟩
      · show S.last = ([] ++ n :: l2t).getLast?
        rw [hS]
        rw [hl]
        simp
      · show List.Chain' (linkRel S) ([] ++ n :: l2t)
        rw [List.nil_append]
        have hcr : List.Chain' (linkRel s) (n :: l2t) := by
          simpa using (List.chain'_cons'.mp (by simpa using hc)).2
        exact chain'_linkRel_congr h n
          (fun hx => hh2 (List.dropLast_sublist _ |>.mem hx))
          (fun hx => (List.nodup_cons.mp hl2nd).1 (by simpa using hx))
          (fun a _ => hnext_all a) hprev_ne hcr
      · show (([] ++ n :: l2t).head?.bind fun x => (nd S x).prev) = none
        rw [List.nil_append, List.head?_cons]
        show (nd S n).prev = none
        rw [ndRn]
      · show (([] ++ n :: l2t).getLast?.bind fun x => (nd S x).next) = none
        rw [List.nil_append]
        rw [optBind_congr _ hnext_all]
        have : (h :: n :: l2t).getLast? = (n :: l2t).getLast? := by simp
        rw [← this]
        simpa using hln
      · intro x hx
        show x < S.heap.length
        simp only [hS, List.length_set]
        exact hb' x hx
      · intro i hi
        simp only [hS, List.length_set] at hi
        exact hflags' i hi
      · intro i hi
        simp only [hS, List.length_set] at hi
        rcases eq_or_ne i n with rfl | hin
        · rw [ndRn]
          refine ⟨fun j hj => ?_, fun j hj => by simp at hj⟩
          have := (hord i hnlen).1 j hj
          simpa [hS] using this
        · rw [ndRo i hin]
          refine ⟨fun j hj => ?_, fun j hj => (hord i hi).2 j hj⟩
          have := (hord i hi).1 j hj
          simpa [hS] using this
    · simp only [List.concat_eq_append] at *
      have hnn : (nd s h).next = some n := by simpa using hnx
      have hpp : (nd s h).prev = some p := by rw [hpv]; simp
      have hnh : n ≠ h := fun e => hh2 (by simp [e])
      have hph : p ≠ h := fun e => hh1 (by simp [e])
      have hpL2 : p ∉ h :: n :: l2t :=
        List.disjoint_of_nodup_append hLnd (by simp)
      have hpn : p ≠ n := fun e => hpL2 (by simp [e])
      have hplen : p < s.heap.length := hb p (by simp)
      have hnlen : n < s.heap.length := hb n (by simp)
      have hl1nd : (l0 ++ [p]).Nodup := (List.nodup_append.mp hLnd).1
      have hpl0 : p ∉ l0 := fun hx => List.disjoint_of_nodup_append hl1nd hx (by simp)
      have hl2nd : (n :: l2t).Nodup := by
        simpa using (List.nodup_append.mp hLnd).2.1.of_cons
      have hnl2t : n ∉ l2t := (List.nodup_cons.mp hl2nd).1
      have hplth : p < h := by
        have hj := (List.chain'_append.mp hLlt).2.2
        exact hj p (by simp) h (by simp)
      have hhltn : h < n :=
        (List.chain'_cons.mp ((List.chain'_append.mp hLlt).2.1)).1
      have hpltn : p < n := Nat.lt_trans hplth hhltn
      rw [unsubscribe_eq_somesome hflagh hfs hnn hpp hnh hpn]
      set S : Coll α :=
        { heap := (s.heap.set n
              (Node.mk (nd s n).callback (nd s n).next (some p))).set p
              (Node.mk (nd s p).callback (some n) (nd s p).prev),
          flags := s.flags.set h false, first := s.first, last := s.last } with hS
      have ndRp : nd S p = Node.mk (nd s p).callback (some n) (nd s p).prev := by
        simp only [hS, nd]
        rw [getD_set_self]
        simpa using hplen
      have ndRn : nd S n = Node.mk (nd s n).callback (nd s n).next (some p) := by
        simp only [hS, nd]
        rw [getD_set_ne _ _ _ hpn]
        exact getD_set_self _ _ _ _ hnlen
      have ndRo : ∀ i, i ≠ p → i ≠ n → nd S i = nd s i := by
        intro i hip hin
        simp only [hS, nd]
        rw [getD_set_ne _ _ _ (Ne.symm hip), getD_set_ne _ _ _ (Ne.symm hin)]
      have hnext_ne_p : ∀ a, a ≠ p → (nd S a).next = (nd s a).next := by
        intro a hap
        rcases eq_or_ne a n with rfl | han
        · rw [ndRn]
        · rw [ndRo a hap han]
      have hprev_ne_n : ∀ b, b ≠ n → (nd S b).prev = (nd s b).prev := by
        intro b hbn
        rcases eq_or_ne b p with rfl | hbp
        · rw [ndRp]
        · rw [ndRo b hbp hbn]
      refine ⟨⟨?_, ?_, ?_, ?_, ?_, ?_, by simp [hS, hfl], ?_⟩, ?_⟩
      · show S.first = ((l0 ++ [p]) ++ n :: l2t).head?
        rw [hS]
        rw [hf, List.head?_append_of_ne_nil (l0 ++ [p]) (by simp : l0 ++ [p] ≠ []),
          List.head?_append_of_ne_nil (l0 ++ [p]) (by simp : l0 ++ [p] ≠ [])]
      · show S.last = ((l0 ++ [p]) ++ n :: l2t).getLast?
        rw [hS]
        rw [hl, List.getLast?_append_of_ne_nil _ (by simp),
          List.getLast?_append_of_ne_nil _ (by simp)]
        simp
      · show List.Chain' (linkRel S) ((l0 ++ [p]) ++ n :: l2t)
        rw [List.chain'_append]
        refine ⟨?_, ?_, ?_⟩
        · exact chain'_linkRel_congr p n
            (by simpa using hpl0)
            (fun hx => List.disjoint_of_nodup_append hLnd (List.mem_of_mem_tail hx) (by simp))
            hnext_ne_p hprev_ne_n (List.chain'_append.mp hc).1
        · have hcr : List.Chain' (linkRel s) (n :: l2t) :=
            ((List.chain'_append.mp hc).2.1).tail
          refine chain'_linkRel_congr p n ?_ ?_ hnext_ne_p hprev_ne_n hcr
          · intro hx
            exact hpL2 (by simp [List.dropLast_sublist (n :: l2t) |>.mem hx])
          · intro hx
            exact hnl2t (by simpa using hx)
        · intro x hx y hy
          simp only [List.getLast?_concat, Option.mem_def, Option.some.injEq] at hx
          simp only [List.head?_cons, Option.mem_def, Option.some.injEq] at hy
          subst hx; subst hy
          exact ⟨by rw [ndRp], by rw [ndRn]⟩
      · show ((((l0 ++ [p]) ++ n :: l2t).head?).bind fun x => (nd S x).prev) = none
        rw [List.head?_append_of_ne_nil (l0 ++ [p]) (by simp : l0 ++ [p] ≠ [])]
        cases hhd : (l0 ++ [p]).head? with
        | none => simp at hhd
        | some a =>
          show (nd S a).prev = none
          have ham : a ∈ l0 ++ [p] := List.mem_of_mem_head? (by rw [hhd]; rfl)
          have han : a ≠ n := by
            intro e
            subst e
            exact List.disjoint_of_nodup_append hLnd ham (by simp)
          rw [hprev_ne_n a han]
          rw [List.head?_append_of_ne_nil (l0 ++ [p]) (by simp : l0 ++ [p] ≠ []),
            hhd] at hhp
          simpa using hhp
      · show ((((l0 ++ [p]) ++ n :: l2t).getLast?).bind fun x => (nd S x).next) = none
        rw [List.getLast?_append_of_ne_nil (l0 ++ [p]) (by simp : n :: l2t ≠ [])]
        cases hz : (n :: l2t).getLast? with
        | none => simp at hz
        | some z =>
          show (nd S z).next = none
          have hzm : z ∈ n :: l2t := List.mem_of_mem_getLast? (by rw [hz]; rfl)
          have hzp : z ≠ p := by
            intro e
            subst e
            exact hpL2 (List.mem_cons_of_mem _ hzm)
          rw [hnext_ne_p z hzp]
          rw [List.getLast?_append_of_ne_nil (l0 ++ [p]) (by simp : h :: n :: l2t ≠ [])]
            at hln
          have hcc : (h :: n :: l2t).getLast? = (n :: l2t).getLast? := by simp
          rw [hcc, hz] at hln
          simpa using hln
      · intro x hx
        show x < S.heap.length
        simp only [hS, List.length_set]
        exact hb' x hx
      · intro i hi
        simp only [hS, List.length_set] at hi
        exact hflags' i hi
      · intro i hi
        simp only [hS, List.length_set] at hi
        rcases eq_or_ne i p with rfl | hip
        · rw [ndRp]
          refine ⟨fun j hj => ?_, fun j hj => (hord i hplen).2 j hj⟩
          simp only [Option.mem_def, Option.some.injEq] at hj
          subst hj
          constructor
          · exact hpltn
          · simp only [hS, List.length_set]
            exact hnlen
        · rcases eq_or_ne i n with rfl | hin
          · rw [ndRn]
            refine ⟨fun j hj => ?_, fun j hj => ?_⟩
            · have := (hord i hnlen).1 j hj
              simpa [hS] using this
            · simp only [Option.mem_def, Option.some.injEq] at hj
              subst hj
              exact hpltn
          · rw [ndRo i hip hin]
            refine ⟨fun j hj => ?_, fun j hj => (hord i hi).2 j hj⟩
            have := (hord i hi).1 j hj
            simpa [hS] using this

/-- A handle off the live chain (never subscribed, or already removed) makes
`unsubscribe` a no-op: the guard fails. -/
theorem unsubscribe_not_mem {α : Type} [Inhabited α] {s : Coll α} {l : List Nat} {h : Nat}
    (hinv : Inv s l) (hm : h ∉ l) : unsubscribe h s = s := by
  obtain ⟨⟨_, _, _, _, _, _, hfl, hflm⟩, _⟩ := hinv
  apply unsubscribe_noop
  have hflag : s.flags.getD h false = false := by
    rcases Nat.lt_or_ge h s.heap.length with hlt | hge
    · have := hflm h hlt
      rcases hbv : s.flags.getD h false with _ | _
      · rfl
      · exact absurd (this.mp hbv) hm
    · exact getD_of_le _ _ (hfl ▸ hge)
  rw [hflag]
  rfl

/-- Erase form of invariant preservation for `unsubscribe`, for any handle. -/
theorem unsubscribe_inv {α : Type} [Inhabited α] {s : Coll α} {l : List Nat}
    (hinv : Inv s l) (h : Nat) : Inv (unsubscribe h s) (l.erase h) := by
  by_cases hm : h ∈ l
  · obtain ⟨l1, l2, rfl⟩ := List.append_of_mem hm
    have hh1 : h ∉ l1 := fun hx =>
      List.disjoint_of_nodup_append (inv_nodup hinv) hx (by simp)
    rw [List.erase_append_right _ hh1, List.erase_cons_head]
    exact unsubscribe_inv_split hinv
  · rw [unsubscribe_not_mem hinv hm, List.erase_of_not_mem hm]
    exact hinv

/-- The empty collection satisfies the invariant with the empty chain. -/
theorem emptyColl_inv {α : Type} [Inhabited α] : Inv (emptyColl : Coll α) [] := by
  refine ⟨⟨rfl, rfl, by simp, rfl, rfl, by simp, rfl, ?_⟩, ?_⟩
  · intro i hi
    simp [emptyColl] at hi
  · intro i hi
    simp [emptyColl] at hi

/-- A well-formed chain is no longer than the heap. -/
theorem chain_length_le {α : Type} [Inhabited α] {s : Coll α} {l : List Nat}
    (hinv : Inv s l) : l.length ≤ s.heap.length := by
  classical
  have h1 := List.toFinset_card_of_nodup (inv_nodup hinv)
  have h2 : l.toFinset ⊆ Finset.range s.heap.length := by
    intro x hx
    simp only [List.mem_toFinset] at hx
    exact Finset.mem_range.mpr (hinv.1.2.2.2.2.2.1 x hx)
  have := Finset.card_le_card h2
  simp only [h1, Finset.card_range] at this
  exact this

/-! ### The `while` walks of `get`/`getRev` recover the live chain -/

theorem getAux_chain {α : Type} [Inhabited α] {s : Coll α} : ∀ (l2 l1 : List Nat),
    Wf s (l1 ++ l2) → ∀ fuel, l2.length ≤ fuel → getAux s fuel l2.head? = l2 := by
  intro l2
  induction l2 with
  | nil =>
    intro l1 _ fuel _
    cases fuel <;> rfl
  | cons x rest ih =>
    intro l1 hwf fuel hfuel
    cases fuel with
    | zero => simp at hfuel
    | succ fuel =>
      show x :: getAux s fuel (nd s x).next = x :: rest
      have hnx : (nd s x).next = rest.head? := (wf_split hwf).1
      rw [hnx]
      have hwf2 : Wf s ((l1 ++ [x]) ++ rest) := by
        rw [List.append_assoc]
        simpa using hwf
      rw [ih (l1 ++ [x]) hwf2 fuel (by simpa using hfuel)]

/-- `get()` returns exactly the live chain, in order. -/
theorem get_eq {α : Type} [Inhabited α] {s : Coll α} {l : List Nat}
    (hinv : Inv s l) : get s = l := by
  have h0 : getAux s s.heap.length l.head? = l :=
    getAux_chain l [] (by simpa using hinv.1) s.heap.length (chain_length_le hinv)
  rw [get, hinv.1.1, h0]

theorem getRevAux_chain {α : Type} [Inhabited α] {s : Coll α} : ∀ (l1 l2 : List Nat),
    Wf s (l1 ++ l2) → ∀ fuel, l1.length ≤ fuel →
    getRevAux s fuel l1.getLast? = l1.reverse := by
  intro l1
  induction l1 using List.reverseRecOn with
  | nil =>
    intro l2 _ fuel _
    cases fuel <;> rfl
  | append_singleton l0 x ih =>
    intro l2 hwf fuel hfuel
    cases fuel with
    | zero => simp at hfuel
    | succ fuel =>
      rw [List.getLast?_concat]
      show x :: getRevAux s fuel (nd s x).prev = (l0 ++ [x]).reverse
      have hsh : Wf s (l0 ++ x :: l2) := by
        have e : (l0 ++ [x]) ++ l2 = l0 ++ x :: l2 := by simp
        rw [e] at hwf
        exact hwf
      have hpv : (nd s x).prev = l0.getLast? := (wf_split hsh).2
      rw [hpv]
      rw [ih (x :: l2) hsh fuel (by simp at hfuel; omega)]
      simp

/-- The backwards walk from `last` via `prev` returns the reversed chain. -/
theorem getRev_eq {α : Type} [Inhabited α] {s : Coll α} {l : List Nat}
    (hinv : Inv s l) : getRev s = l.reverse := by
  have h0 : getRevAux s s.heap.length l.getLast? = l.reverse :=
    getRevAux_chain l [] (by simpa using hinv.1) s.heap.length (chain_length_le hinv)
  rw [getRev, hinv.1.2.1, h0]

/-! ### Characterising `get` after arbitrary call sequences -/

/-- Recursive form of `runOps`, starting from an arbitrary collection. -/
theorem runOps_eq_from (ops : List Op) : runOps ops = runOpsFrom emptyColl ops := by
  show List.foldl _ emptyColl ops = _
  generalize emptyColl = s
  induction ops generalizing s with
  | nil => rfl
  | cons o r ih =>
    cases o with
    | sub cb => exact ih (subscribe cb s).1
    | unsub h => exact ih (unsubscribe h s)

/-- `unsubscribe` never changes the sizes of the heap or flag store. -/
theorem unsubscribe_length {α : Type} [Inhabited α] (h : Nat) (s : Coll α) :
    (unsubscribe h s).heap.length = s.heap.length ∧
    (unsubscribe h s).flags.length = s.flags.length := by
  cases hcond : (s.flags.getD h false && s.first.isSome) with
  | false => rw [unsubscribe_noop hcond]; exact ⟨rfl, rfl⟩
  | true =>
    rw [unsubscribe, if_pos hcond]
    dsimp only []
    split <;> split <;> simp

/-- When the guard passes, `unsubscribe` drops exactly the one closure flag. -/
theorem unsubscribe_flags_of_guard {α : Type} [Inhabited α] {s : Coll α} {x : Nat}
    (hcond : (s.flags.getD x false && s.first.isSome) = true) :
    (unsubscribe x s).flags = s.flags.set x false := by
  rw [unsubscribe, if_pos hcond]
  dsimp only []
  split <;> split <;> rfl

/-- Whatever happens, the flag store changes at most at the removed handle. -/
theorem unsubscribe_flag_ne {α : Type} [Inhabited α] {s : Coll α} {x h : Nat} (hxh : x ≠ h) :
    (unsubscribe x s).flags.getD h false = s.flags.getD h false := by
  cases hcond : (s.flags.getD x false && s.first.isSome) with
  | false => rw [unsubscribe_noop hcond]
  | true =>
    rw [unsubscribe_flags_of_guard hcond]
    exact getD_set_ne _ _ _ hxh

/-- A collection whose chain is inhabited has a non-null `first`. -/
theorem first_isSome_of_mem {α : Type} [Inhabited α] {s : Coll α} {l : List Nat} {h : Nat}
    (hinv : Inv s l) (hm : h ∈ l) : s.first.isSome = true := by
  rw [hinv.1.1]
  cases l with
  | nil => simp at hm
  | cons a t => simp

theorem subsCount_heap_length : ∀ (ops : List Op) (s : Coll Nat),
    (runOpsFrom s ops).heap.length = s.heap.length + subsCount ops := by
  intro ops
  induction ops with
  | nil => intro s; simp [runOpsFrom, subsCount]
  | cons o r ih =>
    intro s
    cases o with
    | sub cb =>
      show (runOpsFrom (subscribe cb s).1 r).heap.length = _
      rw [ih, (subscribe_shape cb s).2.1, subsCount]
      omega
    | unsub h =>
      show (runOpsFrom (unsubscribe h s) r).heap.length = _
      rw [ih, (unsubscribe_length h s).1, subsCount]

/-- The closure-flag of handle `h` after running a call sequence: up exactly
when `h` exists afterwards (was up before, or created by the sequence) and its
closure was never called while it existed. -/
theorem flags_spec : ∀ (ops : List Op) (s : Coll Nat) (l : List Nat), Inv s l → ∀ h,
    ((runOpsFrom s ops).flags.getD h false = true ↔
      ((s.flags.getD h false = true ∨
        (s.heap.length ≤ h ∧ h < s.heap.length + subsCount ops)) ∧
       killed ops s.heap.length h = false)) := by
  intro ops
  induction ops with
  | nil =>
    intro s l hinv h
    show s.flags.getD h false = true ↔ _
    rw [subsCount, killed]
    constructor
    · intro hx
      exact ⟨Or.inl hx, rfl⟩
    · rintro ⟨hx | hx, _⟩
      · exact hx
      · omega
  | cons o r ih =>
    intro s l hinv h
    have hfl : s.flags.length = s.heap.length := hinv.1.2.2.2.2.2.2.1
    cases o with
    | sub cb =>
      have hinv' := subscribe_inv cb hinv
      have hlen' := (subscribe_shape cb s).2.1
      have ihh := ih (subscribe cb s).1 (l ++ [s.heap.length]) hinv' h
      show (runOpsFrom (subscribe cb s).1 r).flags.getD h false = true ↔ _
      rw [ihh, hlen', subsCount, killed]
      have hfl' : (subscribe cb s).1.flags = s.flags ++ [true] := by
        cases hsl : s.last with
        | none => rw [subscribe_eq_none cb s hsl]
        | some p =>
          have hp : p < s.heap.length := hinv.1.2.2.2.2.2.1 p (by
            have := hinv.1.2.1
            rw [hsl] at this
            exact List.mem_of_mem_getLast? (by rw [← this]; rfl))
          rw [subscribe_eq_some cb s hsl hp]
      rw [hfl']
      rcases Nat.lt_trichotomy h s.heap.length with hlt | heq | hgt
      · rw [getD_append_lt _ _ _ (hfl ▸ hlt)]
        constructor
        · rintro ⟨hx | hx, hk⟩
          · exact ⟨Or.inl hx, hk⟩
          · omega
        · rintro ⟨hx | hx, hk⟩
          · exact ⟨Or.inl hx, hk⟩
          · omega
      · subst heq
        rw [← hfl, getD_append_len]
        constructor
        · rintro ⟨_, hk⟩
          exact ⟨Or.inr (by omega), hk⟩
        · rintro ⟨_, hk⟩
          exact ⟨Or.inl rfl, hk⟩
      · have hge2 : s.flags.length + 1 ≤ h := by omega
        rw [getD_of_le _ _ (by simpa using hge2), getD_of_le _ _ (by omega)]
        constructor
        · rintro ⟨hx | hx, hk⟩
          · exact absurd hx (by simp)
          · exact ⟨Or.inr (by omega), hk⟩
        · rintro ⟨hx | hx, hk⟩
          · exact absurd hx (by simp)
          · exact ⟨Or.inr (by omega), hk⟩
    | unsub x =>
      have hinv' := unsubscribe_inv hinv x
      have ihh := ih (unsubscribe x s) (l.erase x) hinv' h
      show (runOpsFrom (unsubscribe x s) r).flags.getD h false = true ↔ _
      rw [ihh, (unsubscribe_length x s).1, subsCount, killed]
      by_cases hxh : x = h
      · subst hxh
        rcases Nat.lt_or_ge x s.heap.length with hlt | hge
        · have hdx : (decide (x < s.heap.length)) = true := by simpa using hlt
          cases hfv : s.flags.getD x false with
          | false =>
            have hcondf : (s.flags.getD x false && s.first.isSome) = false := by
              rw [hfv]
              rfl
            rw [unsubscribe_noop hcondf, hdx]
            simp only [beq_self_eq_true, Bool.true_and, Bool.true_or]
            constructor
            · rintro ⟨hor, hk⟩
              rcases hor with hor | hor
              · rw [hfv] at hor
                exact Bool.noConfusion hor
              · omega
            · rintro ⟨hor, hk⟩
              exact absurd hk (by simp)
          | true =>
            have hmem : x ∈ l := (hinv.1.2.2.2.2.2.2.2 x hlt).mp hfv
            have hguard : (s.flags.getD x false && s.first.isSome) = true := by
              rw [hfv, first_isSome_of_mem hinv hmem]
              rfl
            rw [unsubscribe_flags_of_guard hguard, getD_set_self _ _ _ _ (hfl ▸ hlt), hdx]
            simp only [beq_self_eq_true, Bool.true_and, Bool.true_or]
            constructor
            · rintro ⟨hor, hk⟩
              rcases hor with hor | hor
              · exact absurd hor (by simp)
              · omega
            · rintro ⟨hor, hk⟩
              exact absurd hk (by simp)
        · have hdx : (decide (x < s.heap.length)) = false := by
            simp only [decide_eq_false_iff_not]
            omega
          have hfv : s.flags.getD x false = false := getD_of_le _ _ (hfl ▸ hge)
          have hcondf : (s.flags.getD x false && s.first.isSome) = false := by
            rw [hfv]
            rfl
          rw [unsubscribe_noop hcondf, hdx]
          simp only [Bool.and_false, Bool.false_or]
      · have hdx : (x == h) = false := by simp [hxh]
        rw [unsubscribe_flag_ne hxh, hdx]
        simp only [Bool.false_and, Bool.false_or]

/-- The live chain is the increasing enumeration of the raised flags. -/
theorem chain_eq_filter {s : Coll Nat} {l : List Nat} (hinv : Inv s l) :
    l = (List.range s.heap.length).filter (fun i => s.flags.getD i false) := by
  classical
  have hnd := inv_nodup hinv
  have hsort : l.Pairwise (· < ·) :=
    List.chain'_iff_pairwise.mp (chain_lt hinv.2 hinv.1.2.2.2.2.2.1 hinv.1.2.2.1)
  have hnd2 : ((List.range s.heap.length).filter (fun i => s.flags.getD i false)).Nodup :=
    (List.nodup_range _).filter _
  have hsort2 : ((List.range s.heap.length).filter
      (fun i => s.flags.getD i false)).Pairwise (· < ·) :=
    (List.pairwise_lt_range _).filter _
  have hmem : ∀ x, x ∈ l ↔
      x ∈ (List.range s.heap.length).filter (fun i => s.flags.getD i false) := by
    intro x
    rw [List.mem_filter, List.mem_range]
    constructor
    · intro hx
      have hxl := hinv.1.2.2.2.2.2.1 x hx
      exact ⟨hxl, (hinv.1.2.2.2.2.2.2.2 x hxl).mpr hx⟩
    · rintro ⟨hxl, hfv⟩
      exact (hinv.1.2.2.2.2.2.2.2 x hxl).mp hfv
  have hperm : l.Perm ((List.range s.heap.length).filter (fun i => s.flags.getD i false)) := by
    apply List.perm_of_nodup_nodup_toFinset_eq hnd hnd2
    ext x
    simp only [List.mem_toFinset]
    exact hmem x
  exact List.eq_of_perm_of_sorted hperm hsort hsort2

/-- Every call sequence leaves the collection in a well-formed state. -/
theorem runOpsFrom_inv : ∀ (ops : List Op) (s : Coll Nat) (l : List Nat), Inv s l →
    ∃ lr : List Nat, Inv (runOpsFrom s ops) lr := by
  intro ops
  induction ops with
  | nil => intro s l hinv; exact ⟨l, hinv⟩
  | cons o r ih =>
    intro s l hinv
    cases o with
    | sub cb => exact ih (subscribe cb s).1 (l ++ [s.heap.length]) (subscribe_inv cb hinv)
    | unsub h => exact ih (unsubscribe h s) (l.erase h) (unsubscribe_inv hinv h)

theorem hits_succ {s : Coll Nat} {h : Nat} : ∀ {k w}, hits s h k w → hits s h (k + 1) w := by
  intro k
  induction k with
  | zero => intro w hw; exact Or.inl hw
  | succ k ih =>
    intro w hw
    rcases hw with hw | ⟨u, h1, h2, h3⟩
    · exact Or.inl hw
    · exact Or.inr ⟨u, h1, h2, ih h3⟩

theorem hits_mono {s : Coll Nat} {h k w : Nat} (hw : hits s h k w) :
    ∀ {k2}, k ≤ k2 → hits s h k2 w := by
  intro k2 hk
  induction k2 with
  | zero =>
    have : k = 0 := Nat.le_zero.mp hk
    subst this
    exact hw
  | succ k2 ih =>
    rcases Nat.lt_or_ge k (k2 + 1) with hlt | hge
    · exact hits_succ (ih (by omega))
    · have : k = k2 + 1 := by omega
      subst this
      exact hw

/-- From any live cell `w`, the live chain itself witnesses reachability of any
live `h` at or after `w`. -/
theorem hits_of_chain {s : Coll Nat} {h : Nat} : ∀ (l2 l1 : List Nat) (w : Nat),
    Inv s (l1 ++ w :: l2) → h ∈ w :: l2 → hits s h (l2.length + 1) w := by
  intro l2
  induction l2 with
  | nil =>
    intro l1 w hinv hm
    simp only [List.mem_singleton] at hm
    exact Or.inl hm.symm
  | cons v l2t ih =>
    intro l1 w hinv hm
    rcases eq_or_ne h w with rfl | hhw
    · exact Or.inl rfl
    · have hm2 : h ∈ v :: l2t := by
        rcases List.mem_cons.mp hm with hm | hm
        · exact absurd hm hhw
        · exact hm
      have hnx : (nd s w).next = some v := by
        have := (wf_split hinv.1).1
        simpa using this
      have hlt := chain_lt hinv.2 hinv.1.2.2.2.2.2.1 hinv.1.2.2.1
      have hvh : v ≤ h := by
        rcases List.mem_cons.mp hm2 with hm3 | hm3
        · omega
        · have hcs : List.Chain' (· < ·) (v :: l2t) := by
            have h1 := (List.chain'_append.mp hlt).2.1
            exact h1.tail
          have := List.chain'_iff_pairwise.mp hcs
          have := (List.pairwise_cons.mp this).1 h hm3
          omega
      have hwf2 : Inv s ((l1 ++ [w]) ++ v :: l2t) := by
        have e : (l1 ++ [w]) ++ v :: l2t = l1 ++ w :: v :: l2t := by simp
        rw [e]
        exact hinv
      exact Or.inr ⟨v, hnx, hvh, ih (l1 ++ [w]) v hwf2 hm2⟩

/-- Unlinking live cell `x` re-routes exactly one `next` pointer: its chain
predecessor's, which afterwards points at `x`'s old successor.  All other
`next` pointers — of live and of already-unlinked cells alike — are untouched. -/
theorem unsub_next_effect {s : Coll Nat} {la lb : List Nat} {x : Nat}
    (hinv : Inv s (la ++ x :: lb)) :
    (∀ a, la.getLast? ≠ some a → (nd (unsubscribe x s) a).next = (nd s a).next) ∧
    (∀ p, la.getLast? = some p →
      (nd s p).next = some x ∧ (nd (unsubscribe x s) p).next = lb.head?) := by
  obtain ⟨hw, hord⟩ := hinv
  obtain ⟨hf, hl, hc, hhp, hln, hb, hfl, hflm⟩ := hw
  have hwf : Wf s (la ++ x :: lb) := ⟨hf, hl, hc, hhp, hln, hb, hfl, hflm⟩
  have hLnd : (la ++ x :: lb).Nodup := inv_nodup ⟨hwf, hord⟩
  have hxl : x < s.heap.length := hb x (by simp)
  have hnx : (nd s x).next = lb.head? := (wf_split hwf).1
  have hpv : (nd s x).prev = la.getLast? := (wf_split hwf).2
  have hflagx : s.flags.getD x false = true := (hflm x hxl).mpr (by simp)
  have hfs : s.first.isSome = true := by
    rw [hf]; cases la <;> simp
  have hx1 : x ∉ la := fun hx => List.disjoint_of_nodup_append hLnd hx (by simp)
  have hx2 : x ∉ lb := by
    have h2 := (List.nodup_append.mp hLnd).2.1
    simp at h2
    exact h2.1
  have hprelink : ∀ p, la.getLast? = some p → (nd s p).next = some x := by
    intro p hp
    have h3 := (List.chain'_append.mp hc).2.2
    exact (h3 p (by rw [hp]; rfl) x (by simp)).1
  cases lb with
  | nil =>
    rcases la.eq_nil_or_concat with rfl | ⟨l0, p, rfl⟩
    · rw [unsubscribe_eq_nonenone hflagx hfs (by simpa using hnx) (by simpa using hpv)]
      exact ⟨fun a _ => rfl, fun p hp => by simp at hp⟩
    · simp only [List.concat_eq_append] at *
      have hpp : (nd s x).prev = some p := by rw [hpv]; simp
      have hplen : p < s.heap.length := hb p (by simp)
      rw [unsubscribe_eq_nonesome hflagx hfs (by simpa using hnx) hpp]
      constructor
      · intro a ha
        have hap : a ≠ p := by
          intro e; subst e; exact ha (by simp)
        show ((s.heap.set p _).getD a default).next = _
        rw [getD_set_ne _ _ _ (Ne.symm hap)]
        rfl
      · intro p2 hp2
        have he : p = p2 := by simpa using hp2
        refine ⟨hprelink p2 hp2, ?_⟩
        show ((s.heap.set p _).getD p2 default).next = _
        rw [← he, getD_set_self _ _ _ _ hplen]
        rfl
  | cons n lbt =>
    have hnn : (nd s x).next = some n := by simpa using hnx
    have hnxne : n ≠ x := by
      intro e; exact hx2 (by simp [e])
    rcases la.eq_nil_or_concat with rfl | ⟨l0, p, rfl⟩
    · rw [unsubscribe_eq_somenone hflagx hfs hnn (by simpa using hpv) hnxne]
      constructor
      · intro a _
        show ((s.heap.set n _).getD a default).next = _
        by_cases han : a = n
        · rw [han, getD_set_self _ _ _ _ (hb n (by simp))]
        · rw [getD_set_ne _ _ _ (Ne.symm han)]
          rfl
      · intro p hp
        simp at hp
    · simp only [List.concat_eq_append] at *
      have hpp : (nd s x).prev = some p := by rw [hpv]; simp
      have hplen : p < s.heap.length := hb p (by simp)
      have hnlen : n < s.heap.length := hb n (by simp)
      have hpn : p ≠ n := by
        intro e
        exact List.disjoint_of_nodup_append hLnd
          (show p ∈ l0 ++ [p] by simp) (by simp [e])
      rw [unsubscribe_eq_somesome hflagx hfs hnn hpp hnxne hpn]
      constructor
      · intro a ha
        have hap : a ≠ p := by
          intro e; subst e; exact ha (by simp)
        show (((s.heap.set n _).set p _).getD a default).next = _
        rw [getD_set_ne _ _ _ (Ne.symm hap)]
        by_cases han : a = n
        · rw [han, getD_set_self _ _ _ _ hnlen]
        · rw [getD_set_ne _ _ _ (Ne.symm han)]
          rfl
      · intro p2 hp2
        have he : p = p2 := by simpa using hp2
        refine ⟨hprelink p2 hp2, ?_⟩
        show (((s.heap.set n _).set p _).getD p2 default).next = _
        rw [← he, getD_set_self]
        · rfl
        · simp only [List.length_set]
          exact hplen

/-- One reentrant action cannot cut the walk off from a live handle it does not
unsubscribe: a `subscribe` only turns the live tail's null pointer into a
forward pointer, and an `unsubscribe` of another cell only shortcuts the walk
past that cell. -/
theorem hits_applyAct {s : Coll Nat} {l : List Nat} {h : Nat} {a : Act}
    (hinv : Inv s l) (hh : h ∈ l) (hna : a ≠ Act.unsub h) :
    ∀ k w, hits s h k w → hits (applyAct a s) h k w := by
  intro k
  induction k using Nat.strong_induction_on with
  | _ k ih =>
    intro w hw
    cases k with
    | zero => exact hw
    | succ k =>
      rcases hw with hw | ⟨u, hnxw, huh, hu⟩
      · exact Or.inl hw
      · cases a with
        | sub c =>
          have hlne : l ≠ [] := by
            intro e; subst e; simp at hh
          obtain ⟨l0, p, rfl⟩ : ∃ l0 p, l = l0 ++ [p] := by
            rcases l.eq_nil_or_concat with rfl | ⟨l0, p, rfl⟩
            · exact absurd rfl hlne
            · exact ⟨l0, p, by simp⟩
          have hsl : s.last = some p := by rw [hinv.1.2.1]; simp
          have hpl : p < s.heap.length := hinv.1.2.2.2.2.2.1 p (by simp)
          have hpnone : (nd s p).next = none := by
            have hx := hinv.1.2.2.2.2.1
            rw [List.getLast?_concat] at hx
            simpa using hx
          have hwp : w ≠ p := by
            intro e
            rw [e, hpnone] at hnxw
            exact Option.noConfusion hnxw
          have hwlen : w < s.heap.length := by
            by_contra hge
            have hd : nd s w = default := by
              show s.heap.getD w default = default
              exact getD_of_le _ _ (by omega)
            rw [hd] at hnxw
            exact Option.noConfusion hnxw
          have hnxw2 : (nd (applyAct (Act.sub c) s) w).next = some u := by
            show (nd (subscribe c s).1 w).next = some u
            rw [subscribe_eq_some c s hsl hpl]
            show (((s.heap ++ _).set p _).getD w default).next = some u
            rw [getD_set_ne _ _ _ (Ne.symm hwp), getD_append_lt _ _ _ hwlen]
            exact hnxw
          exact Or.inr ⟨u, hnxw2, huh, ih k (Nat.lt_succ_self k) u hu⟩
        | unsub x =>
          have hxh : x ≠ h := by
            intro e; exact hna (by rw [e])
          by_cases hxl : x ∈ l
          · obtain ⟨la, lb, rfl⟩ := List.append_of_mem hxl
            have heff := unsub_next_effect hinv
            by_cases hwp : la.getLast? = some w
            · have hux : u = x := by
                have hpre := (heff.2 w hwp).1
                rw [hnxw] at hpre
                exact Option.some.inj hpre
              subst hux
              cases k with
              | zero => exact absurd hu hxh
              | succ k2 =>
                rcases hu with hxe | ⟨u2, hnx2, hu2h, hu2⟩
                · exact absurd hxe hxh
                · have hlbh : lb.head? = some u2 := by
                    have hx3 := (wf_split hinv.1).1
                    rw [hnx2] at hx3
                    exact hx3.symm
                  have hedge := (heff.2 w hwp).2
                  refine Or.inr ⟨u2, ?_, hu2h, ?_⟩
                  · show (nd (unsubscribe _ s) w).next = some u2
                    rw [hedge, hlbh]
                  exact hits_succ (ih k2 (by omega) u2 hu2)
            · have hedge := heff.1 w hwp
              refine Or.inr ⟨u, ?_, huh, ?_⟩
              · show (nd (unsubscribe _ s) w).next = some u
                rw [hedge]
                exact hnxw
              · exact ih k (Nat.lt_succ_self k) u hu
          · have he : applyAct (Act.unsub x) s = s := unsubscribe_not_mem hinv hxl
            rw [he]
            exact Or.inr ⟨u, hnxw, huh, hu⟩

/-- Setting a cell to a value keeping its callback preserves every callback. -/
theorem set_keep_callback {α : Type} [Inhabited α] (heap : List (Node α)) (j : Nat)
    (nx pv : Option Nat) (i : Nat) :
    ((heap.set j (Node.mk (heap.getD j default).callback nx pv)).getD i default).callback =
      (heap.getD i default).callback := by
  rcases eq_or_ne j i with rfl | hne
  · rcases Nat.lt_or_ge j heap.length with hlt | hge
    · rw [getD_set_self _ _ _ _ hlt]
    · rw [List.set_eq_of_length_le hge]
  · rw [getD_set_ne _ _ _ hne]

/-- Raw form of `subscribe` for a non-empty tail, with no bound hypothesis. -/
theorem subscribe_eq_some' {α : Type} [Inhabited α] (cb : α) (s : Coll α) {p : Nat}
    (hsl : s.last = some p) :
    subscribe cb s =
      ({ heap := (s.heap ++ [Node.mk cb none (some p)]).set p
           (Node.mk ((s.heap ++ [Node.mk cb none (some p)]).getD p default).callback
             (some s.heap.length)
             ((s.heap ++ [Node.mk cb none (some p)]).getD p default).prev),
         flags := s.flags ++ [true], first := s.first,
         last := some s.heap.length }, s.heap.length) := by
  simp only [subscribe, hsl, nd]

/-- `subscribe` never changes the callback of an existing cell. -/
theorem subscribe_callback {α : Type} [Inhabited α] (cb : α) (s : Coll α) (i : Nat)
    (hi : i < s.heap.length) :
    (nd (subscribe cb s).1 i).callback = (nd s i).callback := by
  cases hsl : s.last with
  | none =>
    rw [subscribe_eq_none cb s hsl]
    show ((s.heap ++ _).getD i default).callback = _
    rw [getD_append_lt _ _ _ hi]
    rfl
  | some p =>
    rw [subscribe_eq_some' cb s hsl]
    show (((s.heap ++ _).set p _).getD i default).callback = (nd s i).callback
    rw [set_keep_callback]
    show ((s.heap ++ _).getD i default).callback = _
    rw [getD_append_lt _ _ _ hi]
    rfl

/-- `unsubscribe` never changes the callback of any cell. -/
theorem unsubscribe_callback {α : Type} [Inhabited α] (x i : Nat) (s : Coll α) :
    (nd (unsubscribe x s) i).callback = (nd s i).callback := by
  cases hcond : (s.flags.getD x false && s.first.isSome) with
  | false => rw [unsubscribe_noop hcond]
  | true =>
    rw [unsubscribe, if_pos hcond]
    dsimp only []
    split
    · split
      · simp only [nd]
        rw [set_keep_callback, set_keep_callback]
      · simp only [nd]
        rw [set_keep_callback]
    · split
      · simp only [nd]
        rw [set_keep_callback]
      · rfl

/-- The live chain after one reentrant action. -/
theorem applyAct_inv {s : Coll Nat} {l : List Nat} (hinv : Inv s l) (a : Act) :
    Inv (applyAct a s) (actChain a s l) := by
  cases a with
  | sub c => exact subscribe_inv c hinv
  | unsub x => exact unsubscribe_inv hinv x

theorem actChain_mem {s : Coll Nat} {l : List Nat} {h : Nat} {a : Act}
    (hh : h ∈ l) (hna : a ≠ Act.unsub h) : h ∈ actChain a s l := by
  cases a with
  | sub c => exact List.mem_append_left _ hh
  | unsub x =>
    have hxh : x ≠ h := fun e => hna (by rw [e])
    exact (List.mem_erase_of_ne (Ne.symm hxh)).mpr hh

theorem applyAct_len (a : Act) (s : Coll Nat) :
    s.heap.length ≤ (applyAct a s).heap.length := by
  cases a with
  | sub c =>
    have := (subscribe_shape c s).2.1
    show s.heap.length ≤ (subscribe c s).1.heap.length
    omega
  | unsub x =>
    show s.heap.length ≤ (unsubscribe x s).heap.length
    rw [(unsubscribe_length x s).1]

theorem applyAct_callback (a : Act) (s : Coll Nat) (i : Nat) (hi : i < s.heap.length) :
    (nd (applyAct a s) i).callback = (nd s i).callback := by
  cases a with
  | sub c => exact subscribe_callback c s i hi
  | unsub x => exact unsubscribe_callback x i s

/-- Running a whole callback body (a list of reentrant actions) keeps the
invariant, only grows the heap, never changes an existing callback, and keeps
both the membership and the reachability of any handle it does not
unsubscribe. -/
theorem foldActs_props : ∀ (as : List Act) (s : Coll Nat) (l : List Nat), Inv s l →
    ∃ lr, Inv (as.foldl (fun s a => applyAct a s) s) lr ∧
      s.heap.length ≤ (as.foldl (fun s a => applyAct a s) s).heap.length ∧
      (∀ i, i < s.heap.length →
        (nd (as.foldl (fun s a => applyAct a s) s) i).callback = (nd s i).callback) ∧
      (∀ h, h ∈ l → Act.unsub h ∉ as → h ∈ lr ∧
        ∀ k w, hits s h k w → hits (as.foldl (fun s a => applyAct a s) s) h k w) := by
  intro as
  induction as with
  | nil =>
    intro s l hinv
    exact ⟨l, hinv, Nat.le_refl _, fun i _ => rfl, fun h hh _ => ⟨hh, fun _ _ hw => hw⟩⟩
  | cons a as ih =>
    intro s l hinv
    obtain ⟨lr, h1, h2, h3, h4⟩ := ih (applyAct a s) (actChain a s l) (applyAct_inv hinv a)
    refine ⟨lr, h1, ?_, ?_, ?_⟩
    · exact Nat.le_trans (applyAct_len a s) h2
    · intro i hi
      have hi2 : i < (applyAct a s).heap.length := Nat.lt_of_lt_of_le hi (applyAct_len a s)
      exact (h3 i hi2).trans (applyAct_callback a s i hi)
    · intro h hh hna
      have hna1 : a ≠ Act.unsub h := by
        intro e; exact hna (by rw [e]; exact List.mem_cons_self _ _)
      have hna2 : Act.unsub h ∉ as := fun hx => hna (List.mem_cons_of_mem _ hx)
      obtain ⟨hm, hhits⟩ := h4 h (actChain_mem hh hna1) hna2
      exact ⟨hm, fun k w hw => hhits k w (hits_applyAct hinv hh hna1 k w hw)⟩

/-- A null cursor ends the walk regardless of fuel. -/
theorem notifyAuxA_none (acts : Nat → List Act) (fuel : Nat) (s : Coll Nat) :
    notifyAuxA acts fuel none s = (s, []) := by
  cases fuel <;> rfl

/-- The visit order of the `notify` walk strictly follows registration order:
the trace of visited handles is strictly increasing. -/
theorem walker_trace_inc (acts : Nat → List Act) : ∀ (fuel : Nat) (o : Option Nat)
    (s : Coll Nat) (l : List Nat), Inv s l →
    List.Chain' (· < ·) (notifyAuxA acts fuel o s).2 ∧
    (∀ w, o = some w → ∀ t ∈ (notifyAuxA acts fuel o s).2, w ≤ t) := by
  intro fuel
  induction fuel with
  | zero =>
    intro o s l _
    constructor
    · cases o <;> simp [notifyAuxA]
    · intro w hw t ht
      cases o <;> simp [notifyAuxA] at ht
  | succ fuel ih =>
    intro o s l hinv
    cases o with
    | none => exact ⟨by simp [notifyAuxA], by intro w hw; exact Option.noConfusion hw⟩
    | some i =>
      obtain ⟨lr, h1, _, _, _⟩ :=
        foldActs_props (acts ((nd s i).callback)) s l hinv
      have hrec := ih (nd (runActs acts ((nd s i).callback) s) i).next
        (runActs acts ((nd s i).callback) s) lr h1
      have hstep : notifyAuxA acts (fuel + 1) (some i) s =
          ((notifyAuxA acts fuel (nd (runActs acts ((nd s i).callback) s) i).next
            (runActs acts ((nd s i).callback) s)).1,
           i :: (notifyAuxA acts fuel (nd (runActs acts ((nd s i).callback) s) i).next
            (runActs acts ((nd s i).callback) s)).2) := rfl
      rw [hstep]
      constructor
      · apply List.chain'_cons'.mpr
        constructor
        · intro y hy
          cases hnxt : (nd (runActs acts ((nd s i).callback) s) i).next with
          | none =>
            rw [hnxt, notifyAuxA_none] at hy
            simp at hy
          | some u =>
            have hiu : i < u := by
              have hin : i < (runActs acts ((nd s i).callback) s).heap.length := by
                by_contra hge
                have hd : nd (runActs acts ((nd s i).callback) s) i = default := by
                  show (runActs acts ((nd s i).callback) s).heap.getD i default = default
                  exact getD_of_le _ _ (by omega)
                rw [hd] at hnxt
                exact Option.noConfusion hnxt
              have := (h1.2 i hin).1 u (Option.mem_def.mpr hnxt)
              exact this.1
            have hbound := hrec.2 u hnxt y
              (List.mem_of_mem_head? (Option.mem_def.mpr hy))
            omega
        · exact hrec.1
      · intro w hw t ht
        have hwi : w = i := by
          injection hw with e
          exact e.symm
        subst hwi
        rcases List.mem_cons.mp ht with rfl | ht
        · exact Nat.le_refl _
        · cases hnxt : (nd (runActs acts ((nd s w).callback) s) w).next with
          | none =>
            rw [hnxt, notifyAuxA_none] at ht
            simp at ht
          | some u =>
            have hin : w < (runActs acts ((nd s w).callback) s).heap.length := by
              by_contra hge
              have hd : nd (runActs acts ((nd s w).callback) s) w = default := by
                show (runActs acts ((nd s w).callback) s).heap.getD w default = default
                exact getD_of_le _ _ (by omega)
              rw [hd] at hnxt
              exact Option.noConfusion hnxt
            have hiu : w < u := ((h1.2 w hin).1 u (Option.mem_def.mpr hnxt)).1
            rw [hnxt] at ht
            have := hrec.2 u (by rw [hnxt]) t (by rw [hnxt]; exact ht)
            omega

/-- One unfolded step of the `notify` walk at a live cursor. -/
theorem notifyAuxA_succ (acts : Nat → List Act) (fuel i : Nat) (s : Coll Nat) :
    notifyAuxA acts (fuel + 1) (some i) s =
      ((notifyAuxA acts fuel (nd (runActs acts ((nd s i).callback) s) i).next
        (runActs acts ((nd s i).callback) s)).1,
       i :: (notifyAuxA acts fuel (nd (runActs acts ((nd s i).callback) s) i).next
        (runActs acts ((nd s i).callback) s)).2) := rfl

/-- The no-skip core: a live handle `h` that is reachable from the cursor and
that no callback ever unsubscribes is visited by the walk, given fuel beyond
the reachability bound. -/
theorem walker_visits (acts : Nat → List Act) (h : Nat)
    (hnu : ∀ c, Act.unsub h ∉ acts c) :
    ∀ (k fuel w : Nat) (s : Coll Nat) (l : List Nat), Inv s l → h ∈ l →
      hits s h k w → k < fuel → h ∈ (notifyAuxA acts fuel (some w) s).2 := by
  intro k
  induction k with
  | zero =>
    intro fuel w s l _ _ hh hf
    have hw : w = h := hh
    cases fuel with
    | zero => omega
    | succ f =>
      rw [notifyAuxA_succ, hw]
      exact List.mem_cons_self _ _
  | succ k ih =>
    intro fuel w s l hinv hm hh hf
    cases fuel with
    | zero => omega
    | succ f =>
      rw [notifyAuxA_succ]
      by_cases hwh : w = h
      · rw [hwh]
        exact List.mem_cons_self _ _
      · obtain ⟨lr, h1, _, _, h4⟩ := foldActs_props (acts ((nd s w).callback)) s l hinv
        obtain ⟨hmem, hhits⟩ := h4 h hm (hnu ((nd s w).callback))
        have hh1 : hits (runActs acts ((nd s w).callback) s) h (k + 1) w :=
          hhits (k + 1) w hh
        rcases hh1 with he | ⟨u, hnx, _, hu⟩
        · exact absurd he hwh
        · rw [hnx]
          exact List.mem_cons_of_mem _
            (ih f u (runActs acts ((nd s w).callback) s) lr h1 hmem hu (by omega))

/-- `notify()` visits every handle that is live when the pass starts and whose
closure no callback calls during the pass, exactly once, when the fuel exceeds
the heap size (which bounds the live chain). -/
theorem notify_no_skip (acts : Nat → List Act) (fuel : Nat) (s : Coll Nat)
    (l : List Nat) (h : Nat) (hinv : Inv s l) (hm : h ∈ l)
    (hnu : ∀ c, Act.unsub h ∉ acts c) (hf : s.heap.length < fuel) :
    (notifyA acts fuel s).2.count h = 1 := by
  have hnd : (notifyA acts fuel s).2.Nodup := by
    have hch := (walker_trace_inc acts fuel s.first s l hinv).1
    exact (List.chain'_iff_pairwise.mp hch).nodup
  have hmem : h ∈ (notifyA acts fuel s).2 := by
    cases hl : l with
    | nil => rw [hl] at hm; exact absurd hm (List.not_mem_nil h)
    | cons w rest =>
      have hfw : s.first = some w := by rw [hinv.1.1, hl]; rfl
      have hhit : hits s h (rest.length + 1) w := by
        apply hits_of_chain rest [] w
        · rw [← hl]; exact hinv
        · rw [← hl]; exact hm
      have hlen : l.length ≤ s.heap.length := chain_length_le hinv
      show h ∈ (notifyAuxA acts fuel s.first s).2
      rw [hfw]
      apply walker_visits acts h hnu (rest.length + 1) fuel w s l hinv hm hhit
      rw [hl] at hlen
      simp only [List.length_cons] at hlen
      omega
  exact List.count_eq_one_of_mem hnd hmem

/-- `get()` after any external call sequence: exactly the handles created by
the sequence whose closure was never called while they were live, in handle
(registration) order. -/
theorem get_runOps (ops : List Op) :
    get (runOps ops) =
      (List.range (subsCount ops)).filter (fun h => !(killed ops 0 h)) := by
  rw [runOps_eq_from]
  obtain ⟨lr, hinv⟩ := runOpsFrom_inv ops emptyColl [] emptyColl_inv
  rw [get_eq hinv, chain_eq_filter hinv]
  have hlen : (runOpsFrom emptyColl ops).heap.length = subsCount ops := by
    rw [subsCount_heap_length]
    simp [emptyColl]
  rw [hlen]
  apply List.filter_congr
  intro h hh
  rw [List.mem_range] at hh
  have hspec := flags_spec ops emptyColl [] emptyColl_inv h
  simp only [emptyColl, List.getD_nil, List.length_nil, Nat.zero_add, Nat.zero_le,
    true_and, Nat.le_zero] at hspec
  cases hk : killed ops 0 h with
  | false =>
    have : (runOpsFrom emptyColl ops).flags.getD h false = true := by
      apply hspec.mpr
      constructor
      · right
        exact hh
      · exact hk
    rw [this]
    rfl
  | true =>
    cases hv : (runOpsFrom emptyColl ops).flags.getD h false with
    | false => rfl
    | true =>
      have := (hspec.mp hv).2
      rw [hk] at this
      exact Bool.noConfusion this

/-- Calling an unsubscribe closure a second time is always a no-op: the first
call (whether or not it unlinked anything) leaves a state in which the guard
fails. -/
theorem unsubscribe_idem {α : Type} [Inhabited α] (h : Nat) (s : Coll α) :
    unsubscribe h (unsubscribe h s) = unsubscribe h s := by
  cases hcond : (s.flags.getD h false && s.first.isSome) with
  | false =>
    rw [unsubscribe_noop hcond, unsubscribe_noop hcond]
  | true =>
    apply unsubscribe_noop
    have hfl : (unsubscribe h s).flags = s.flags.set h false :=
      unsubscribe_flags_of_guard hcond
    have hz : (unsubscribe h s).flags.getD h false = false := by
      rw [hfl]
      by_cases hlt : h < s.flags.length
      · exact getD_set_self _ _ _ _ hlt
      · exact getD_of_le _ _ (by simp only [List.length_set]; omega)
    rw [hz]
    rfl

/-- Directly after `clear()`, any unsubscribe closure call is a no-op: the
`first === null` half of the guard rejects it. -/
theorem clear_unsub_noop {α : Type} [Inhabited α] (h : Nat) (s : Coll α) :
    unsubscribe h (clear s) = clear s := by
  apply unsubscribe_noop
  show ((clear s).flags.getD h false && (clear s).first.isSome) = false
  exact Bool.and_false _

/-- The local link laws of the invariant: a live cell with no `prev` is
`first` and one with a `prev` is its predecessor's `next`; symmetrically for
`next`/`last`. -/
theorem inv_link_props {α : Type} [Inhabited α] {s : Coll α} {l : List Nat}
    (hinv : Inv s l) : ∀ h ∈ l,
    ((nd s h).prev = none → s.first = some h) ∧
    (∀ p, (nd s h).prev = some p → (nd s p).next = some h) ∧
    ((nd s h).next = none → s.last = some h) ∧
    (∀ n, (nd s h).next = some n → (nd s n).prev = some h) := by
  intro h hm
  obtain ⟨la, lb, rfl⟩ := List.append_of_mem hm
  have hnx : (nd s h).next = lb.head? := (wf_split hinv.1).1
  have hpv : (nd s h).prev = la.getLast? := (wf_split hinv.1).2
  have hc := hinv.1.2.2.1
  refine ⟨?_, ?_, ?_, ?_⟩
  · intro hp
    rw [hpv] at hp
    rcases la.eq_nil_or_concat with rfl | ⟨l0, q, rfl⟩
    · rw [hinv.1.1]
      rfl
    · simp at hp
  · intro p hp
    rw [hpv] at hp
    rcases la.eq_nil_or_concat with rfl | ⟨l0, q, rfl⟩
    · simp at hp
    · have hq : q = p := by simpa using hp
      subst hq
      simp only [List.concat_eq_append] at hc
      have := (List.chain'_append.mp hc).2.2 q (by simp) h rfl
      exact this.1
  · intro hn
    rw [hnx] at hn
    cases lb with
    | nil =>
      rw [hinv.1.2.1]
      simp
    | cons b t => exact Option.noConfusion hn
  · intro n hn
    rw [hnx] at hn
    cases lb with
    | nil => exact Option.noConfusion hn
    | cons b t =>
      have hb : b = n := by simpa using hn
      subst hb
      have h2 := (List.chain'_append.mp hc).2.1
      exact (List.chain'_cons.mp h2).1.2

/-! ## Properties of the subscription-node world -/

theorem nodeOf_setColl (w : World) (ci : Nat) (c : Coll Cb) (j : Nat) :
    nodeOf (setColl w ci c) j = nodeOf w j := rfl

theorem nodeOf_setNode_self {w : World} {i : Nat} (n : NodeState)
    (hi : i < w.nodes.length) : nodeOf (setNode w i n) i = n :=
  getD_set_self _ _ _ _ hi

theorem nodeOf_setNode_ne {w : World} {i j : Nat} (n : NodeState)
    (hij : i ≠ j) : nodeOf (setNode w i n) j = nodeOf w j :=
  getD_set_ne _ _ _ hij

theorem nodeOf_setNode_ge {w : World} {i : Nat} (n : NodeState)
    (hi : w.nodes.length ≤ i) (j : Nat) : nodeOf (setNode w i n) j = nodeOf w j := by
  show (w.nodes.set i n).getD j _ = _
  rw [List.set_eq_of_length_le hi]
  rfl

/-- What one successful `trySubscribe` does to the world: node count and every
parent pointer survive, the state discipline survives, and afterwards the
node's undo closure is installed and (granted the discipline held before) its
registry is live. -/
theorem trySubscribeF_props : ∀ (fuel i : Nat) (w w1 : World),
    trySubscribeF fuel i w = .ok w1 →
    w1.nodes.length = w.nodes.length ∧
    (∀ j, (nodeOf w1 j).parent = (nodeOf w j).parent) ∧
    (NodeInvW w → NodeInvW w1) ∧
    (i < w.nodes.length →
      (nodeOf w1 i).unsub.isSome = true ∧
      (NodeInvW w → (nodeOf w1 i).listeners.isSome = true)) := by
  intro fuel
  induction fuel with
  | zero =>
    intro i w w1 h
    exact absurd h (by simp [trySubscribeF])
  | succ fuel ih =>
    intro i w w1 h
    rw [trySubscribeF] at h
    cases hu : (nodeOf w i).unsub with
    | some u =>
      rw [hu] at h
      have hw : w = w1 := by injection h
      subst hw
      refine ⟨rfl, fun j => rfl, fun hni => hni,
        fun hi => ⟨by rw [hu]; rfl, fun hni => ?_⟩⟩
      exact hni i (by rw [hu]; rfl)
    | none =>
      rw [hu] at h
      cases hp : (nodeOf w i).parent with
      | none =>
        rw [hp] at h
        dsimp only [] at h
        injection h with h2
        subst h2
        by_cases hi : i < w.nodes.length
        · constructor
          · simp [setNode, setColl]
          constructor
          · intro j
            by_cases hij : i = j
            · subst hij
              rw [nodeOf_setNode_self _ (by simpa [setColl] using hi)]
              simp [nodeOf, setColl]
            · rw [nodeOf_setNode_ne _ hij]
              rfl
          constructor
          · intro hni j hj
            by_cases hij : i = j
            · subst hij
              rw [nodeOf_setNode_self _ (by simpa [setColl] using hi)]
              rfl
            · rw [nodeOf_setNode_ne _ hij] at hj ⊢
              exact hni j hj
          · intro _
            refine ⟨?_, fun _ => ?_⟩ <;>
              rw [nodeOf_setNode_self _ (by simpa [setColl] using hi)] <;> rfl
        · have hge : w.nodes.length ≤ i := by omega
          constructor
          · simp [setNode, setColl]
          constructor
          · intro j
            rw [nodeOf_setNode_ge _ (by simpa [setColl] using hge)]
            rfl
          constructor
          · intro hni j hj
            rw [nodeOf_setNode_ge _ (by simpa [setColl] using hge)] at hj ⊢
            exact hni j hj
          · intro hi2
            omega
      | some p =>
        rw [hp] at h
        dsimp only [] at h
        cases hrec : trySubscribeF fuel p w with
        | error e =>
          rw [hrec] at h
          exact absurd h (by simp)
        | ok wp =>
          rw [hrec] at h
          dsimp only [] at h
          obtain ⟨hlen, hpar, hinv, _⟩ := ih p w wp hrec
          cases hl : (nodeOf wp p).listeners with
          | none =>
            rw [hl] at h
            exact absurd h (by simp)
          | some cip =>
            rw [hl] at h
            dsimp only [] at h
            injection h with h2
            subst h2
            by_cases hi : i < w.nodes.length
            · have hi2 : i < wp.nodes.length := by omega
              constructor
              · simp [setNode, setColl, hlen]
              constructor
              · intro j
                by_cases hij : i = j
                · subst hij
                  rw [nodeOf_setNode_self _ (by simpa [setColl] using hi2)]
                  simp only [nodeOf_setColl]
                  exact hpar i
                · rw [nodeOf_setNode_ne _ hij]
                  exact hpar j
              constructor
              · intro hni j hj
                by_cases hij : i = j
                · subst hij
                  rw [nodeOf_setNode_self _ (by simpa [setColl] using hi2)]
                  rfl
                · rw [nodeOf_setNode_ne _ hij] at hj ⊢
                  exact hinv hni j hj
              · intro _
                refine ⟨?_, fun _ => ?_⟩ <;>
                  rw [nodeOf_setNode_self _ (by simpa [setColl] using hi2)] <;> rfl
            · have hge : wp.nodes.length ≤ i := by omega
              constructor
              · simp [setNode, setColl, hlen]
              constructor
              · intro j
                rw [nodeOf_setNode_ge _ (by simpa [setColl] using hge)]
                exact hpar j
              constructor
              · intro hni j hj
                rw [nodeOf_setNode_ge _ (by simpa [setColl] using hge)] at hj ⊢
                exact hinv hni j hj
              · intro hi2
                omega

/-- Under the state discipline and in-range parents, the fueled
`trySubscribe` never hits the sentinel's missing `subscribe`: its only
failure mode is running out of fuel. -/
theorem trySubscribeF_no_sentinel : ∀ (fuel i : Nat) (w : World),
    NodeInvW w → parentWF w → trySubscribeF fuel i w ≠ .error .sentinel := by
  intro fuel
  induction fuel with
  | zero =>
    intro i w _ _ h
    rw [trySubscribeF] at h
    exact SubErr.noConfusion (Except.error.inj h)
  | succ fuel ih =>
    intro i w hni hpw h
    rw [trySubscribeF] at h
    cases hu : (nodeOf w i).unsub with
    | some u =>
      rw [hu] at h
      exact Except.noConfusion h
    | none =>
      rw [hu] at h
      cases hp : (nodeOf w i).parent with
      | none =>
        rw [hp] at h
        dsimp only [] at h
        exact Except.noConfusion h
      | some p =>
        rw [hp] at h
        dsimp only [] at h
        cases hrec : trySubscribeF fuel p w with
        | error e =>
          rw [hrec] at h
          have he : e = SubErr.sentinel := Except.error.inj h
          exact ih p w hni hpw (by rw [hrec, he])
        | ok wp =>
          rw [hrec] at h
          dsimp only [] at h
          have hplt : p < w.nodes.length := hpw i p hp
          have hls := ((trySubscribeF_props fuel p w wp hrec).2.2.2 hplt).2 hni
          cases hl : (nodeOf wp p).listeners with
          | none =>
            rw [hl] at hls
            exact Bool.noConfusion hls
          | some cip =>
            rw [hl] at h
            dsimp only [] at h
            exact Except.noConfusion h

/-- `addNestedSub` can only fail for fuel, never on the sentinel: its leading
`trySubscribe()` installs a live registry before `listeners.subscribe` runs. -/
theorem addNestedSubF_no_sentinel (fuel p : Nat) (cb : Cb) (w : World)
    (hni : NodeInvW w) (hpw : parentWF w) (hp : p < w.nodes.length) :
    addNestedSubF fuel p cb w ≠ .error .sentinel := by
  intro h
  rw [addNestedSubF] at h
  cases hrec : trySubscribeF fuel p w with
  | error e =>
    rw [hrec] at h
    have he : e = SubErr.sentinel := Except.error.inj h
    exact trySubscribeF_no_sentinel fuel p w hni hpw (by rw [hrec, he])
  | ok wp =>
    rw [hrec] at h
    dsimp only [] at h
    have hls := ((trySubscribeF_props fuel p w wp hrec).2.2.2 hp).2 hni
    cases hl : (nodeOf wp p).listeners with
    | none =>
      rw [hl] at hls
      exact Bool.noConfusion hls
    | some cip =>
      rw [hl] at h
      dsimp only [] at h
      exact Except.noConfusion h

/-- A second `trySubscribe` right after a successful one does nothing at all:
the undo closure is present, so the guard returns immediately and the world —
in particular every upstream subscriber list — is untouched. -/
theorem trySubscribeF_idem (fuel i : Nat) (w w1 : World)
    (hi : i < w.nodes.length) (h : trySubscribeF fuel i w = .ok w1) :
    ∀ fuel2, trySubscribeF (fuel2 + 1) i w1 = .ok w1 := by
  intro fuel2
  have hu := ((trySubscribeF_props fuel i w w1 h).2.2.2 hi).1
  rw [trySubscribeF]
  cases hc : (nodeOf w1 i).unsub with
  | none =>
    rw [hc] at hu
    exact Bool.noConfusion hu
  | some u => rfl

/-- `tryUnsubscribe` on a node that is not attached does nothing. -/
theorem tryUnsubscribeF_noop (i : Nat) (w : World)
    (h : (nodeOf w i).unsub = none) : tryUnsubscribeF i w = some w := by
  rw [tryUnsubscribeF, h]

/-- `tryUnsubscribe` on an attached node (under the state discipline): it
succeeds, and afterwards the node holds no undo closure and the sentinel
registry, so `isSubscribed` is false, `notifyNestedSubs` runs no callback and
returns the world unchanged, and `getListeners().get()` is empty. -/
theorem tryUnsubscribeF_teardown (i : Nat) (w : World)
    (hi : i < w.nodes.length)
    (hu : (nodeOf w i).unsub.isSome = true)
    (hl : (nodeOf w i).listeners.isSome = true) :
    ∃ w1, tryUnsubscribeF i w = some w1 ∧
      (nodeOf w1 i).unsub = none ∧
      (nodeOf w1 i).listeners = none ∧
      isSubscribedF i w1 = false ∧
      (∀ fuel, notifyNestedSubsF fuel i w1 = (w1, [])) ∧
      getListenersGet i w1 = [] := by
  rw [tryUnsubscribeF]
  cases hc : (nodeOf w i).unsub with
  | none =>
    rw [hc] at hu
    exact Bool.noConfusion hu
  | some u =>
    dsimp only []
    cases hcl : (nodeOf (setColl w u.1 (unsubscribe u.2 (collOf w u.1))) i).listeners with
    | none =>
      rw [nodeOf_setColl] at hcl
      rw [hcl] at hl
      exact Bool.noConfusion hl
    | some li =>
      have hi2 : i < (setColl (setColl w u.1 (unsubscribe u.2 (collOf w u.1))) li
          (clear (collOf (setColl w u.1 (unsubscribe u.2 (collOf w u.1))) li))).nodes.length := hi
      refine ⟨_, rfl, ?_, ?_, ?_, fun fuel => ?_, ?_⟩
      · rw [nodeOf_setNode_self _ hi2]
      · rw [nodeOf_setNode_self _ hi2]
      · simp only [isSubscribedF]
        rw [nodeOf_setNode_self _ hi2]
        rfl
      · simp only [notifyNestedSubsF]
        rw [nodeOf_setNode_self _ hi2]
      · simp only [getListenersGet]
        rw [nodeOf_setNode_self _ hi2]

/-- `tryUnsubscribe` preserves the state discipline and the parent table. -/
theorem tryUnsubscribeF_props (i : Nat) (w w1 : World)
    (h : tryUnsubscribeF i w = some w1) :
    w1.nodes.length = w.nodes.length ∧
    (∀ j, (nodeOf w1 j).parent = (nodeOf w j).parent) ∧
    (NodeInvW w → NodeInvW w1) := by
  rw [tryUnsubscribeF] at h
  cases hc : (nodeOf w i).unsub with
  | none =>
    rw [hc] at h
    have hw : w = w1 := Option.some.inj h
    subst hw
    exact ⟨rfl, fun j => rfl, fun hni => hni⟩
  | some u =>
    rw [hc] at h
    dsimp only [] at h
    cases hcl : (nodeOf (setColl w u.1 (unsubscribe u.2 (collOf w u.1))) i).listeners with
    | none =>
      rw [hcl] at h
      exact Option.noConfusion h
    | some li =>
      rw [hcl] at h
      dsimp only [] at h
      have hw := Option.some.inj h
      subst hw
      by_cases hi : i < w.nodes.length
      · refine ⟨by simp [setNode, setColl], fun j => ?_, fun hni j hj => ?_⟩
        · by_cases hij : i = j
          · subst hij
            rw [nodeOf_setNode_self _ (by simpa [setColl] using hi)]
            rfl
          · rw [nodeOf_setNode_ne _ hij]
            rfl
        · by_cases hij : i = j
          · subst hij
            rw [nodeOf_setNode_self _ (by simpa [setColl] using hi)] at hj
            exact Bool.noConfusion hj
          · rw [nodeOf_setNode_ne _ hij] at hj ⊢
            exact hni j hj
      · have hge : w.nodes.length ≤ i := by omega
        refine ⟨by simp [setNode, setColl], fun j => ?_, fun hni j hj => ?_⟩
        · rw [nodeOf_setNode_ge _ (by simpa [setColl] using hge)]
          rfl
        · rw [nodeOf_setNode_ge _ (by simpa [setColl] using hge)] at hj ⊢
          exact hni j hj

/-- The `notify` walk of the node world never touches the node table: running
`mark` and `handleChangeWrapper` callbacks only reads nodes and rewrites
listener collections. -/
theorem notifyW_nodes : ∀ (fuel ci : Nat) (o : Option Nat) (w : World),
    (notifyW fuel ci o w).1.nodes = w.nodes := by
  intro fuel
  induction fuel with
  | zero => intro ci o w; rfl
  | succ fuel ih =>
    intro ci o w
    cases o with
    | none => rfl
    | some k =>
      rw [notifyW]
      dsimp only []
      rw [ih]
      cases hcb : (nd (collOf w ci) k).callback with
      | mark m => rfl
      | hcw j =>
        dsimp only []
        cases hosc : (nodeOf w j).osc with
        | false => rfl
        | true =>
          rw [if_pos rfl]
          cases hl : (nodeOf w j).listeners with
          | none => rfl
          | some cj => exact ih cj (collOf w cj).first w

/-- `subscribe` always makes the fresh cell the tail. -/
theorem subscribe_last {α : Type} [Inhabited α] (cb : α) (s : Coll α) :
    (subscribe cb s).1.last = some s.heap.length := by
  cases hsl : s.last with
  | none => simp [subscribe, hsl]
  | some p => simp [subscribe, hsl]

/-! ## The claims -/

/-- C1: in every `notify()` pass the visit trace is strictly increasing in
handle (registration) order; every handle that is live at the start of the
pass and whose unsubscribe closure no callback calls is invoked exactly once —
neither skipped nor duplicated — whatever other reentrant unsubscribes the
callbacks perform; and in the concrete scenario (three subscribers, handle 1
removed beforehand, cb3 reentrantly unsubscribing the already-visited
handle 0) the pass completes visiting handles 0 and 2, and a subsequent
`notify()` invokes only cb3's handle 2. -/
theorem claim_C1_notify_order_and_no_skip :
    (∀ (acts : Nat → List Act) (fuel : Nat) (s : Coll Nat) (l : List Nat),
      Inv s l → List.Chain' (· < ·) (notifyA acts fuel s).2) ∧
    (∀ (acts : Nat → List Act) (fuel : Nat) (s : Coll Nat) (l : List Nat) (h : Nat),
      Inv s l → h ∈ l → (∀ c, Act.unsub h ∉ acts c) → s.heap.length < fuel →
      (notifyA acts fuel s).2.count h = 1) ∧
    (notifyA actsC1 10 sC1b).2 = [0, 2] ∧
    (notifyA actsC1 10 (notifyA actsC1 10 sC1b).1).2 = [2] := by
  refine ⟨?_, ?_, by decide, by decide⟩
  · intro acts fuel s l hinv
    exact (walker_trace_inc acts fuel s.first s l hinv).1
  · intro acts fuel s l h hinv hm hnu hf
    exact notify_no_skip acts fuel s l h hinv hm hnu hf

/-- Exactly-once delivery instantiated on the spec's scenario: handle 2 is
counted once in the pass in which cb3 unsubscribes handle 0. -/
theorem claim_C1_witness : (notifyA actsC1 10 sC1b).2.count 2 = 1 :=
  claim_C1_notify_order_and_no_skip.2.1 actsC1 10 sC1b [0, 2] 2
    ⟨⟨by decide, by decide,
      by simp only [List.chain'_cons, List.chain'_singleton, and_true]; decide,
      by decide, by decide, by decide, by decide, by decide⟩, by decide⟩
    (by decide)
    (fun c => by by_cases hc : c = 3 <;> simp [actsC1, hc])
    (by decide)

/-- C2: in the two-level tree (store → P → C, with terminal listeners markP
on P and markC on C, upstream attachments made in that order), one root
change notification produces exactly the event trace [markP, markC]: the
ancestor's listener runs before — and its notify loop hosts — the
descendant's, each exactly once, and the walk leaves the world unchanged. -/
theorem claim_C2_ancestor_before_descendant :
    (addNestedSubF 3 0 (Cb.mark 10) wC2a).isOk = true ∧
    (trySubscribeF 3 1 wC2b).isOk = true ∧
    (addNestedSubF 3 1 (Cb.mark 20) wC2c).isOk = true ∧
    (rootNotifyW 10 wC2d).2 = [10, 20] ∧
    (rootNotifyW 10 wC2d).1 = wC2d := by decide

/-- C3: after any sequence of `subscribe`/`unsubscribe` calls on a fresh
registry, `get()` returns exactly the handles whose unsubscribe closure was
never called while the handle existed, in registration order. -/
theorem claim_C3_get_exactly_live (ops : List Op) :
    get (runOps ops) =
      (List.range (subsCount ops)).filter (fun h => !(killed ops 0 h)) :=
  get_runOps ops

/-- C4 as stated is false: once a `subscribe` follows the `clear()`, a
pre-clear unsubscribe closure passes the guard again (its flag is still up and
`first` is no longer null) and corrupts the registry — here it nulls `first`
while the post-clear handle 1 is still subscribed. -/
theorem claim_C4_counterexample :
    unsubscribe 0 sC4 ≠ sC4 ∧
    (unsubscribe 0 sC4).first = none ∧
    (unsubscribe 0 sC4).flags.getD 1 false = true := by decide

/-- C4, amended: a pre-clear unsubscribe closure is a safe no-op as long as no
`subscribe` has repopulated the registry — directly after `clear()` the
`first === null` guard rejects every closure, old or new. -/
theorem claim_C4_clear_then_unsubscribe_noop {α : Type} [Inhabited α]
    (h : Nat) (s : Coll α) : unsubscribe h (clear s) = clear s :=
  clear_unsub_noop h s

/-- C5: every unsubscribe closure is idempotent — the second and all later
calls are no-ops, with no exception and no second unlink, on any registry
state whatsoever. -/
theorem claim_C5_unsubscribe_idempotent {α : Type} [Inhabited α]
    (h : Nat) (s : Coll α) :
    unsubscribe h (unsubscribe h s) = unsubscribe h s :=
  unsubscribe_idem h s

/-- C6: `trySubscribe` twice in a row attaches upstream exactly once — after a
successful call the node holds its undo closure, so the second call returns
the world untouched (no collection, in particular no upstream subscriber
list, changes); a first call on a fresh root node appends exactly one cell to
the store's subscriber list; and `tryUnsubscribe` on an unattached node is a
complete no-op. -/
theorem claim_C6_try_calls_idempotent :
    (∀ (fuel i : Nat) (w w1 : World), i < w.nodes.length →
      trySubscribeF fuel i w = .ok w1 →
      ∀ fuel2, trySubscribeF (fuel2 + 1) i w1 = .ok w1) ∧
    (∀ (fuel i : Nat) (w w1 : World), 0 < w.colls.length →
      (nodeOf w i).unsub = none → (nodeOf w i).parent = none →
      trySubscribeF (fuel + 1) i w = .ok w1 →
      (collOf w1 0).heap.length = (collOf w 0).heap.length + 1) ∧
    (∀ (i : Nat) (w : World), (nodeOf w i).unsub = none →
      tryUnsubscribeF i w = some w) := by
  refine ⟨trySubscribeF_idem, ?_, tryUnsubscribeF_noop⟩
  intro fuel i w w1 hc hu hp h
  rw [trySubscribeF, hu, hp] at h
  dsimp only [] at h
  injection h with h2
  subst h2
  simp only [collOf, setNode, setColl]
  have h1 : (w.colls.set 0 (subscribe (Cb.hcw i) (w.colls.getD 0 emptyColl)).1
        ++ [emptyColl]).getD 0 emptyColl =
      (w.colls.set 0 (subscribe (Cb.hcw i) (w.colls.getD 0 emptyColl)).1).getD 0 emptyColl :=
    getD_append_lt _ _ _ (by simpa using hc)
  rw [h1, getD_set_self _ _ _ _ hc]
  exact (subscribe_shape (Cb.hcw i) (w.colls.getD 0 emptyColl)).2.1

/-- Second `trySubscribe` on the concrete attached root node returns the world
unchanged. -/
theorem claim_C6_witness : trySubscribeF 5 0 wN1 = .ok wN1 :=
  claim_C6_try_calls_idempotent.1 1 0 wN0 wN1 (by decide) rfl 4

/-- C7: the doubly-linked-list structural invariant holds of the fresh
registry and is preserved by every `subscribe` and `unsubscribe`; under it the
forward walk from `first` via `next` enumerates exactly the live chain (ending
at `last`, then null), the backward walk from `last` via `prev` enumerates its
reverse (ending at `first`), and each live cell is either the endpoint or
mutually linked with its neighbour on each side. -/
theorem claim_C7_structural_invariant :
    Inv (emptyColl : Coll Nat) [] ∧
    (∀ {α : Type} [Inhabited α] (cb : α) (s : Coll α) (l : List Nat), Inv s l →
      Inv (subscribe cb s).1 (l ++ [s.heap.length])) ∧
    (∀ {α : Type} [Inhabited α] (h : Nat) (s : Coll α) (l : List Nat), Inv s l →
      Inv (unsubscribe h s) (l.erase h)) ∧
    (∀ {α : Type} [Inhabited α] (s : Coll α) (l : List Nat), Inv s l →
      get s = l ∧ getRev s = l.reverse ∧
      ∀ h ∈ l,
        ((nd s h).prev = none → s.first = some h) ∧
        (∀ p, (nd s h).prev = some p → (nd s p).next = some h) ∧
        ((nd s h).next = none → s.last = some h) ∧
        (∀ n, (nd s h).next = some n → (nd s n).prev = some h)) :=
  ⟨emptyColl_inv,
   fun cb s l hinv => subscribe_inv cb hinv,
   fun h s l hinv => unsubscribe_inv hinv h,
   fun s l hinv => ⟨get_eq hinv, getRev_eq hinv, inv_link_props hinv⟩⟩

/-- C8: under the node-state discipline (undo closure present ↔ live registry
installed, parent pointers in range) `addNestedSub` can never reach the
sentinel's missing `subscribe` — its only failure is fuel exhaustion of the
parent chain; the discipline holds of a fresh world and is preserved by
`trySubscribe`, `tryUnsubscribe` and the notify walk. -/
theorem claim_C8_addNestedSub_never_sentinel :
    (∀ (fuel p : Nat) (cb : Cb) (w : World), NodeInvW w → parentWF w →
      p < w.nodes.length → addNestedSubF fuel p cb w ≠ .error .sentinel) ∧
    (NodeInvW wN0 ∧ parentWF wN0) ∧
    (∀ (fuel i : Nat) (w w1 : World), trySubscribeF fuel i w = .ok w1 →
      (NodeInvW w → NodeInvW w1) ∧ (parentWF w → parentWF w1)) ∧
    (∀ (i : Nat) (w w1 : World), tryUnsubscribeF i w = some w1 →
      (NodeInvW w → NodeInvW w1) ∧ (parentWF w → parentWF w1)) ∧
    (∀ (fuel ci : Nat) (o : Option Nat) (w : World),
      (NodeInvW w → NodeInvW (notifyW fuel ci o w).1) ∧
      (parentWF w → parentWF (notifyW fuel ci o w).1)) := by
  refine ⟨addNestedSubF_no_sentinel, ⟨?_, ?_⟩, ?_, ?_, ?_⟩
  · intro j hj
    by_cases h0 : j = 0
    · subst h0
      exact absurd hj (by decide)
    · rw [show nodeOf wN0 j = ⟨none, none, none, false⟩ from
        getD_of_le _ _ (by simp [wN0]; omega)] at hj
      exact Bool.noConfusion hj
  · intro j p hp
    by_cases h0 : j = 0
    · subst h0
      have hn : (nodeOf wN0 0).parent = none := rfl
      rw [hn] at hp
      exact Option.noConfusion hp
    · rw [show nodeOf wN0 j = ⟨none, none, none, false⟩ from
        getD_of_le _ _ (by simp [wN0]; omega)] at hp
      exact Option.noConfusion hp
  · intro fuel i w w1 h
    obtain ⟨hlen, hpar, hinv, _⟩ := trySubscribeF_props fuel i w w1 h
    refine ⟨hinv, fun hpw j p hp => ?_⟩
    rw [hpar j] at hp
    rw [hlen]
    exact hpw j p hp
  · intro i w w1 h
    obtain ⟨hlen, hpar, hinv⟩ := tryUnsubscribeF_props i w w1 h
    refine ⟨hinv, fun hpw j p hp => ?_⟩
    rw [hpar j] at hp
    rw [hlen]
    exact hpw j p hp
  · intro fuel ci o w
    constructor
    · intro hni j
      rw [show nodeOf (notifyW fuel ci o w).1 j = nodeOf w j from by
        rw [nodeOf, notifyW_nodes]; rfl]
      exact hni j
    · intro hpw j p
      rw [show nodeOf (notifyW fuel ci o w).1 j = nodeOf w j from by
          rw [nodeOf, notifyW_nodes]; rfl,
        show (notifyW fuel ci o w).1.nodes.length = w.nodes.length from by
          rw [notifyW_nodes]]
      exact hpw j p

/-- C9: `tryUnsubscribe` on an attached, disciplined node succeeds and leaves
the node on the shared sentinel: afterwards it reports unsubscribed, any late
`notifyNestedSubs()` invokes no callback and returns the world unchanged, and
`getListeners().get()` is empty — no dereference of a missing registry ever
happens. -/
theorem claim_C9_teardown_safe (i : Nat) (w : World)
    (hi : i < w.nodes.length)
    (hu : (nodeOf w i).unsub.isSome = true)
    (hl : (nodeOf w i).listeners.isSome = true) :
    ∃ w1, tryUnsubscribeF i w = some w1 ∧
      (nodeOf w1 i).unsub = none ∧
      (nodeOf w1 i).listeners = none ∧
      isSubscribedF i w1 = false ∧
      (∀ fuel, notifyNestedSubsF fuel i w1 = (w1, [])) ∧
      getListenersGet i w1 = [] :=
  tryUnsubscribeF_teardown i w hi hu hl

/-- Teardown of the concrete attached root node. -/
theorem claim_C9_witness :
    ∃ w1, tryUnsubscribeF 0 wN1 = some w1 ∧
      (nodeOf w1 0).unsub = none ∧
      (nodeOf w1 0).listeners = none ∧
      isSubscribedF 0 w1 = false ∧
      (∀ fuel, notifyNestedSubsF fuel 0 w1 = (w1, [])) ∧
      getListenersGet 0 w1 = [] :=
  claim_C9_teardown_safe 0 wN1 (by decide) (by decide) (by decide)

/-- C10 as stated is false: when the only live callback first unsubscribes its
own handle and then subscribes a new one, the pass ends after handle 0 — the
new handle 1 exists (heap grew, its flag is up) but is never invoked in that
pass, because the cursor cell was unlinked before the append and its `next`
stayed null. -/
theorem claim_C10_counterexample :
    (notifyA actsC10 10 sC10).2 = [0] ∧
    (notifyA actsC10 10 sC10).1.heap.length = 2 ∧
    (notifyA actsC10 10 sC10).1.flags.getD 1 false = true := by decide

/-- C10, amended: a mid-pass `subscribe` does append the new handle at the
tail of the live chain (fresh handle = old heap size, new `last`, invariant
extended), and the walker genuinely reaches every handle that is live and
still `next`-reachable from its cursor (and never unsubscribed) — so the new
tail is invoked later in the pass exactly when the cursor's chain to the tail
survives, which the counterexample's self-unsubscribe breaks. -/
theorem claim_C10_tail_append_reached :
    (∀ (cb : Nat) (s : Coll Nat),
      (subscribe cb s).2 = s.heap.length ∧
      (subscribe cb s).1.last = some s.heap.length) ∧
    (∀ (cb : Nat) (s : Coll Nat) (l : List Nat), Inv s l →
      Inv (subscribe cb s).1 (l ++ [s.heap.length])) ∧
    (∀ (acts : Nat → List Act) (h : Nat), (∀ c, Act.unsub h ∉ acts c) →
      ∀ (k fuel w : Nat) (s : Coll Nat) (l : List Nat), Inv s l → h ∈ l →
        hits s h k w → k < fuel → h ∈ (notifyAuxA acts fuel (some w) s).2) :=
  ⟨fun cb s => ⟨(subscribe_shape cb s).1, subscribe_last cb s⟩,
   fun cb s l hinv => subscribe_inv cb hinv,
   walker_visits⟩

end Subscription